import Mathlib

/-!
# Verification of the `forest.benchmarking` distance-measure library

This file formalizes the quantum state/process distance measures demonstrated by
`docs/examples/distance_measures.ipynb`.  The numerical module itself
(`distance_measures.py`) is not part of the supplied sources, so every definition
below is modelled from the specification's formulas, over exact complex matrices
(`Matrix (Fin d) (Fin d) ℂ`) instead of floating-point arrays.
-/

open Matrix Finset
open scoped ComplexOrder

namespace DistanceMeasures

variable {d : ℕ}

/-- Modelled from the spec: a density matrix is a complex square matrix that is
Hermitian, positive semidefinite and has trace 1 (`Matrix.PosSemidef` already
includes Hermiticity). -/
def IsDensityMatrix (ρ : Matrix (Fin d) (Fin d) ℂ) : Prop :=
  ρ.PosSemidef ∧ ρ.trace = 1

open Classical in
/-- Modelled from the spec: the numerically stable (eigendecomposition based)
matrix square root of a positive semidefinite matrix, used by `fidelity` and
`trace_distance`; the missing `distance_measures.py` delegates this to the
linear-algebra backend.  Total function: junk value `0` off positive
semidefinite inputs. -/
noncomputable def matrix_sqrt (M : Matrix (Fin d) (Fin d) ℂ) : Matrix (Fin d) (Fin d) ℂ :=
  if h : M.PosSemidef then h.sqrt else 0

/-- Modelled from the spec: `fidelity(ρ, σ)` computes
`F(ρ,σ) = (Tr[√(√ρ · σ · √ρ)])²` as a real scalar. -/
noncomputable def fidelity (ρ σ : Matrix (Fin d) (Fin d) ℂ) : ℝ :=
  ((matrix_sqrt (matrix_sqrt ρ * σ * matrix_sqrt ρ)).trace).re ^ 2

/-- Modelled from the spec: `infidelity(ρ,σ) = 1 - fidelity(ρ,σ)`. -/
noncomputable def infidelity (ρ σ : Matrix (Fin d) (Fin d) ℂ) : ℝ :=
  1 - fidelity ρ σ

/-- Modelled from the spec:
`trace_distance(ρ,σ) = ½·Tr[√((ρ-σ)† (ρ-σ))]`. -/
noncomputable def trace_distance (ρ σ : Matrix (Fin d) (Fin d) ℂ) : ℝ :=
  (1 / 2) * ((matrix_sqrt ((ρ - σ)ᴴ * (ρ - σ))).trace).re

/-- Modelled from the spec: `purity(ρ, dim_renorm)`; without renormalization it
returns `Tr[ρ²]`, with renormalization `(d/(d-1))·(Tr[ρ²] - 1/d)` where the
dimension `d` is inferred from the shape of `ρ`. -/
noncomputable def purity (ρ : Matrix (Fin d) (Fin d) ℂ) (dim_renorm : Bool) : ℝ :=
  if dim_renorm then ((d : ℝ) / ((d : ℝ) - 1)) * (((ρ * ρ).trace).re - 1 / (d : ℝ))
  else ((ρ * ρ).trace).re

/-- Modelled from the spec: `impurity(ρ, dim_renorm) = 1 - purity(ρ, dim_renorm)`
under the matching renormalization flag. -/
noncomputable def impurity (ρ : Matrix (Fin d) (Fin d) ℂ) (dim_renorm : Bool) : ℝ :=
  1 - purity ρ dim_renorm

/-- Modelled from the spec: `bures_distance(ρ,σ) = √(2(1-√F(ρ,σ)))`, reusing the
same fidelity computation. -/
noncomputable def bures_distance (ρ σ : Matrix (Fin d) (Fin d) ℂ) : ℝ :=
  Real.sqrt (2 * (1 - Real.sqrt (fidelity ρ σ)))

/-- Modelled from the spec: `bures_angle(ρ,σ) = arccos(√F(ρ,σ))`, reusing the
same fidelity computation. -/
noncomputable def bures_angle (ρ σ : Matrix (Fin d) (Fin d) ℂ) : ℝ :=
  Real.arccos (Real.sqrt (fidelity ρ σ))

/-- Modelled from the spec: `hilbert_schmidt_ip(ρ,σ) = Tr[ρ† σ]` as a real scalar. -/
noncomputable def hilbert_schmidt_ip (ρ σ : Matrix (Fin d) (Fin d) ℂ) : ℝ :=
  ((ρᴴ * σ).trace).re

open Classical in
/-- Modelled from the spec: matrix fractional power of a Hermitian matrix via
eigendecomposition (the linear-algebra backend collaborator used by
`quantum_chernoff_bound`).  Total function: junk value `0` off Hermitian inputs. -/
noncomputable def fractional_matrix_power (M : Matrix (Fin d) (Fin d) ℂ) (s : ℝ) :
    Matrix (Fin d) (Fin d) ℂ :=
  if h : M.IsHermitian then
    (h.eigenvectorUnitary : Matrix (Fin d) (Fin d) ℂ) *
      diagonal (fun i => ((h.eigenvalues i ^ s : ℝ) : ℂ)) *
      star (h.eigenvectorUnitary : Matrix (Fin d) (Fin d) ℂ)
  else 0

/-- Modelled from the spec: the scalar objective `s ↦ Tr[ρ^s σ^(1-s)]` minimized
by `quantum_chernoff_bound` over the closed interval `[0,1]`. -/
noncomputable def qcb_objective (ρ σ : Matrix (Fin d) (Fin d) ℂ) (s : ℝ) : ℝ :=
  ((fractional_matrix_power ρ s * fractional_matrix_power σ (1 - s)).trace).re

/-- Modelled from the spec: the first component (`qcb_exp`) returned by
`quantum_chernoff_bound(ρ,σ)`: the minimum over `s ∈ [0,1]` of `Tr[ρ^s σ^(1-s)]`. -/
noncomputable def quantum_chernoff_bound (ρ σ : Matrix (Fin d) (Fin d) ℂ) : ℝ :=
  sInf (qcb_objective ρ σ '' Set.Icc (0 : ℝ) 1)

/-- Modelled from the spec:
`process_fidelity(R_P, R_U) = (Tr[R_Pᵗ R_U]/d + 1) / (d+1)` on Pauli-Liouville
(real) matrices, where `d` is inferred from the matrix side length (`d² = n`). -/
noncomputable def process_fidelity {n : ℕ} (R_P R_U : Matrix (Fin n) (Fin n) ℝ) : ℝ :=
  ((R_Pᵀ * R_U).trace / (Nat.sqrt n : ℝ) + 1) / ((Nat.sqrt n : ℝ) + 1)

/-- Modelled from the spec: `process_infidelity = 1 - process_fidelity`. -/
noncomputable def process_infidelity {n : ℕ} (R_P R_U : Matrix (Fin n) (Fin n) ℝ) : ℝ :=
  1 - process_fidelity R_P R_U

/-- Modelled from the spec: a Pauli-Liouville matrix represents a
trace-preserving map exactly when its first row is `(1, 0, …, 0)` (the
coefficient of the identity Pauli is preserved by the dual action). -/
def IsTracePreservingPL {n : ℕ} [NeZero n] (R : Matrix (Fin n) (Fin n) ℝ) : Prop :=
  ∀ j, R 0 j = if j = 0 then 1 else 0

/-- Modelled from the spec: the Pauli-Liouville matrix of the rotation by angle
`θ` about the X axis on one qubit (the notebook's `kraus2pauli_liouville(Ud)`;
the conversion utility is an external collaborator, so its output on this
standard gate is modelled directly): identity on the span of `{I, X}` and a
rotation by `θ` of the `{Y, Z}` plane. -/
noncomputable def rot_x_pl (θ : ℝ) : Matrix (Fin 4) (Fin 4) ℝ :=
  Matrix.of
    ![![1, 0, 0, 0],
      ![0, 1, 0, 0],
      ![0, 0, Real.cos θ, -Real.sin θ],
      ![0, 0, Real.sin θ, Real.cos θ]]

/-- Modelled from the spec: the Pauli-Liouville matrix of the completely
depolarizing one-qubit channel `ρ ↦ (Tr ρ)·I/2`, a trace-preserving map. -/
def depolarizing_pl : Matrix (Fin 4) (Fin 4) ℝ :=
  Matrix.diagonal ![1, 0, 0, 0]

/-- The Euclidean norm of a complex vector, written through the Hermitian dot
product (an infrastructure definition for the proofs below). -/
noncomputable def cnorm (v : Fin d → ℂ) : ℝ :=
  Real.sqrt ((star v ⬝ᵥ v).re)

end DistanceMeasures

namespace DistanceMeasures

/- ### Spectral infrastructure -/

section Spectral

variable {d : ℕ} {M : Matrix (Fin d) (Fin d) ℂ}

lemma matrix_sqrt_of_posSemidef (hM : M.PosSemidef) : matrix_sqrt M = hM.sqrt :=
  dif_pos hM

lemma dm_trace_diagonal (f : Fin d → ℂ) : (diagonal f).trace = ∑ i, f i := by
  simp [Matrix.trace, Matrix.diag]

lemma trace_unitary_conj (V D : Matrix (Fin d) (Fin d) ℂ) (hV : star V * V = 1) :
    (V * D * star V).trace = D.trace := by
  rw [trace_mul_comm (V * D) (star V), ← mul_assoc, hV, one_mul]

/-- The trace of a Hermitian matrix is the sum of its eigenvalues. -/
lemma re_trace_eq_sum_eigenvalues (hM : M.IsHermitian) :
    M.trace.re = ∑ i, hM.eigenvalues i := by
  conv_lhs => rw [hM.spectral_theorem]
  rw [trace_unitary_conj _ _ (Matrix.UnitaryGroup.star_mul_self hM.eigenvectorUnitary),
    dm_trace_diagonal]
  simp

/-- The trace of the PSD square root is the sum of the square roots of the
eigenvalues. -/
lemma trace_matrix_sqrt (hM : M.PosSemidef) :
    (matrix_sqrt M).trace = ∑ i, (Real.sqrt (hM.1.eigenvalues i) : ℂ) := by
  rw [matrix_sqrt_of_posSemidef hM, Matrix.PosSemidef.sqrt,
    trace_unitary_conj _ _ (Matrix.UnitaryGroup.star_mul_self hM.1.eigenvectorUnitary),
    dm_trace_diagonal]
  rfl

lemma re_trace_matrix_sqrt (hM : M.PosSemidef) :
    (matrix_sqrt M).trace.re = ∑ i, Real.sqrt (hM.1.eigenvalues i) := by
  rw [trace_matrix_sqrt hM]
  simp

lemma re_trace_matrix_sqrt_nonneg (hM : M.PosSemidef) :
    0 ≤ (matrix_sqrt M).trace.re := by
  rw [re_trace_matrix_sqrt hM]
  exact Finset.sum_nonneg fun i _ => Real.sqrt_nonneg _

lemma matrix_sqrt_herm (hρ : ρ.PosSemidef) : (matrix_sqrt ρ)ᴴ = matrix_sqrt ρ := by
  rw [matrix_sqrt_of_posSemidef hρ]; exact hρ.posSemidef_sqrt.1

lemma matrix_sqrt_posSemidef (hρ : ρ.PosSemidef) : (matrix_sqrt ρ).PosSemidef := by
  rw [matrix_sqrt_of_posSemidef hρ]; exact hρ.posSemidef_sqrt

lemma matrix_sqrt_mul_self (hρ : ρ.PosSemidef) : matrix_sqrt ρ * matrix_sqrt ρ = ρ := by
  rw [matrix_sqrt_of_posSemidef hρ]; exact hρ.sqrt_mul_self

lemma matrix_sqrt_unique {X : Matrix (Fin d) (Fin d) ℂ} (hX : X.PosSemidef)
    (hM : M.PosSemidef) (h : X * X = M) : matrix_sqrt M = X := by
  rw [matrix_sqrt_of_posSemidef hM]
  exact (hX.eq_sqrt_of_sq_eq hM (by rw [pow_two, h])).symm

lemma matrix_sqrt_sq (hρ : ρ.PosSemidef) : matrix_sqrt (ρ * ρ) = ρ := by
  have hsq : (ρ * ρ).PosSemidef := by
    have h := posSemidef_self_mul_conjTranspose ρ
    rwa [hρ.1.eq] at h
  exact matrix_sqrt_unique hρ hsq rfl

/-- The trace of a PSD matrix is nonnegative. -/
lemma re_trace_nonneg_of_posSemidef (hM : M.PosSemidef) : 0 ≤ M.trace.re := by
  rw [re_trace_eq_sum_eigenvalues hM.1]
  exact Finset.sum_nonneg fun i _ => hM.eigenvalues_nonneg i

/-- The (real part of the) trace of a product of two PSD matrices is
nonnegative. -/
lemma re_trace_mul_nonneg (hM : M.PosSemidef) {N : Matrix (Fin d) (Fin d) ℂ}
    (hN : N.PosSemidef) : 0 ≤ (M * N).trace.re := by
  have hs : M = matrix_sqrt M * matrix_sqrt M := by
    rw [matrix_sqrt_of_posSemidef hM, hM.sqrt_mul_self]
  have hherm : (matrix_sqrt M)ᴴ = matrix_sqrt M := by
    rw [matrix_sqrt_of_posSemidef hM]
    exact hM.posSemidef_sqrt.1
  have hconj : ((matrix_sqrt M) * N * (matrix_sqrt M)ᴴ).PosSemidef :=
    hN.mul_mul_conjTranspose_same (matrix_sqrt M)
  have : (M * N).trace = ((matrix_sqrt M) * N * (matrix_sqrt M)ᴴ).trace := by
    rw [hherm]
    conv_lhs => rw [hs]
    rw [mul_assoc, trace_mul_comm]
  rw [this]
  exact re_trace_nonneg_of_posSemidef hconj

end Spectral

/- ### Polynomial functional calculus -/

section PolyCalc

variable {d : ℕ} {M : Matrix (Fin d) (Fin d) ℂ}

lemma conj_pow (V D : Matrix (Fin d) (Fin d) ℂ) (h1 : V * star V = 1)
    (h2 : star V * V = 1) (n : ℕ) :
    (V * D * star V) ^ n = V * D ^ n * star V := by
  induction n with
  | zero => simp [h1]
  | succ k ih =>
      rw [pow_succ, ih, pow_succ]
      calc V * D ^ k * star V * (V * D * star V)
          = V * D ^ k * (star V * V) * D * star V := by
            simp only [mul_assoc]
        _ = V * (D ^ k * D) * star V := by rw [h2]; simp only [mul_one, mul_assoc]

lemma aeval_unitary_conj (p : Polynomial ℂ) (V D : Matrix (Fin d) (Fin d) ℂ)
    (h1 : V * star V = 1) (h2 : star V * V = 1) :
    Polynomial.aeval (V * D * star V) p = V * Polynomial.aeval D p * star V := by
  induction p using Polynomial.induction_on' with
  | h_add p q hp hq =>
      rw [map_add, map_add, hp, hq, Matrix.mul_add, Matrix.add_mul]
  | h_monomial n a =>
      rw [Polynomial.aeval_monomial, Polynomial.aeval_monomial, conj_pow V D h1 h2]
      rw [show (algebraMap ℂ (Matrix (Fin d) (Fin d) ℂ) a) = a • (1 : Matrix (Fin d) (Fin d) ℂ)
          from Algebra.algebraMap_eq_smul_one a]
      simp [Matrix.smul_mul, Matrix.mul_smul]

lemma aeval_diagonal (p : Polynomial ℂ) (f : Fin d → ℂ) :
    Polynomial.aeval (diagonal f) p = diagonal (fun i => p.eval (f i)) := by
  induction p using Polynomial.induction_on' with
  | h_add p q hp hq =>
      rw [map_add, hp, hq, diagonal_add]
      simp [Polynomial.eval_add]
  | h_monomial n a =>
      rw [Polynomial.aeval_monomial, Matrix.diagonal_pow, Matrix.algebraMap_eq_diagonal,
        diagonal_mul_diagonal]
      simp [Polynomial.eval_monomial]

lemma commute_aeval {X : Matrix (Fin d) (Fin d) ℂ} (h : X * M = M * X) (p : Polynomial ℂ) :
    X * Polynomial.aeval M p = Polynomial.aeval M p * X := by
  induction p using Polynomial.induction_on' with
  | h_add p q hp hq => rw [map_add, Matrix.mul_add, Matrix.add_mul, hp, hq]
  | h_monomial n a =>
      rw [Polynomial.aeval_monomial]
      have hpow : X * M ^ n = M ^ n * X := (Commute.pow_right h n : _)
      calc X * (algebraMap ℂ (Matrix (Fin d) (Fin d) ℂ) a * M ^ n)
          = algebraMap ℂ (Matrix (Fin d) (Fin d) ℂ) a * (X * M ^ n) := by
            rw [← mul_assoc, ← Algebra.commutes a X, mul_assoc]
        _ = algebraMap ℂ (Matrix (Fin d) (Fin d) ℂ) a * M ^ n * X := by
            rw [hpow, mul_assoc]

/-- A polynomial over `ℂ` interpolating `Real.sqrt` on any finite set of reals. -/
lemma exists_interpolating_sqrt (E : Finset ℝ) :
    ∃ p : Polynomial ℂ, ∀ x ∈ E, p.eval (x : ℂ) = (Real.sqrt x : ℂ) := by
  classical
  refine ⟨Lagrange.interpolate E (fun x : ℝ => (x : ℂ)) (fun x : ℝ => (Real.sqrt x : ℂ)),
    fun x hx => ?_⟩
  exact Lagrange.eval_interpolate_at_node _
    (fun a _ b _ hab => by exact_mod_cast hab) hx

/-- The PSD square root is a polynomial in the matrix: for any polynomial
agreeing with `Real.sqrt` on (a superset of) the spectrum. -/
lemma matrix_sqrt_eq_aeval (hM : M.PosSemidef) {E : Finset ℝ}
    (hE : ∀ i, hM.1.eigenvalues i ∈ E) {p : Polynomial ℂ}
    (hp : ∀ x ∈ E, p.eval (x : ℂ) = (Real.sqrt x : ℂ)) :
    matrix_sqrt M = Polynomial.aeval M p := by
  have h1 : (hM.1.eigenvectorUnitary : Matrix (Fin d) (Fin d) ℂ) *
      star (hM.1.eigenvectorUnitary : Matrix (Fin d) (Fin d) ℂ) = 1 :=
    Matrix.mem_unitaryGroup_iff.mp hM.1.eigenvectorUnitary.2
  have h2 : star (hM.1.eigenvectorUnitary : Matrix (Fin d) (Fin d) ℂ) *
      (hM.1.eigenvectorUnitary : Matrix (Fin d) (Fin d) ℂ) = 1 :=
    Matrix.UnitaryGroup.star_mul_self hM.1.eigenvectorUnitary
  conv_rhs => rw [hM.1.spectral_theorem]
  rw [aeval_unitary_conj _ _ _ h1 h2, aeval_diagonal]
  have hfun : (fun i => Polynomial.eval ((RCLike.ofReal ∘ hM.1.eigenvalues) i) p) =
      (RCLike.ofReal ∘ Real.sqrt ∘ hM.1.eigenvalues : Fin d → ℂ) := by
    funext i
    exact hp _ (hE i)
  rw [hfun, matrix_sqrt_of_posSemidef hM, Matrix.PosSemidef.sqrt]

/-- Anything commuting with a PSD matrix commutes with its square root. -/
lemma commute_matrix_sqrt {X : Matrix (Fin d) (Fin d) ℂ} (hM : M.PosSemidef)
    (h : X * M = M * X) : X * matrix_sqrt M = matrix_sqrt M * X := by
  classical
  obtain ⟨p, hp⟩ := exists_interpolating_sqrt (Finset.image hM.1.eigenvalues Finset.univ)
  rw [matrix_sqrt_eq_aeval hM (fun i => Finset.mem_image_of_mem _ (Finset.mem_univ i)) hp]
  exact commute_aeval h p

lemma mul_pow_rotate (A B : Matrix (Fin d) (Fin d) ℂ) (k : ℕ) :
    (A * B) ^ (k + 1) = A * (B * A) ^ k * B := by
  induction k with
  | zero => simp
  | succ m ih =>
      calc (A * B) ^ (m + 1 + 1) = (A * B) ^ (m + 1) * (A * B) := pow_succ _ _
        _ = A * (B * A) ^ m * B * (A * B) := by rw [ih]
        _ = A * ((B * A) ^ m * (B * A)) * B := by simp only [mul_assoc]
        _ = A * (B * A) ^ (m + 1) * B := by rw [← pow_succ]

lemma trace_pow_mul_comm (A B : Matrix (Fin d) (Fin d) ℂ) (n : ℕ) :
    ((A * B) ^ n).trace = ((B * A) ^ n).trace := by
  cases n with
  | zero => rfl
  | succ k =>
      rw [mul_pow_rotate, trace_mul_comm, pow_succ']
      congr 1
      simp only [mul_assoc]

/-- Traces of polynomials of `A*B` and of `B*A` agree. -/
lemma trace_aeval_mul_comm (A B : Matrix (Fin d) (Fin d) ℂ) (p : Polynomial ℂ) :
    (Polynomial.aeval (A * B) p).trace = (Polynomial.aeval (B * A) p).trace := by
  induction p using Polynomial.induction_on' with
  | h_add p q hp hq => rw [map_add, map_add, trace_add, trace_add, hp, hq]
  | h_monomial n a =>
      rw [Polynomial.aeval_monomial, Polynomial.aeval_monomial]
      rw [show (algebraMap ℂ (Matrix (Fin d) (Fin d) ℂ) a) = a • (1 : Matrix (Fin d) (Fin d) ℂ)
          from Algebra.algebraMap_eq_smul_one a]
      rw [smul_mul_assoc, smul_mul_assoc, one_mul, one_mul, trace_smul, trace_smul]
      rw [trace_pow_mul_comm]

end PolyCalc

/- ### Hermitian dot-product toolkit -/

section DotToolkit

variable {d : ℕ}

lemma dot_star_comm (x y : Fin d → ℂ) : star y ⬝ᵥ x = star (star x ⬝ᵥ y) := by
  simp only [dotProduct, Pi.star_apply, star_sum, star_mul', star_star]
  apply Finset.sum_congr rfl
  intro k _
  ring

lemma re_dot_self_eq (v : Fin d → ℂ) :
    (star v ⬝ᵥ v).re = ∑ i, Complex.normSq (v i) := by
  simp only [dotProduct, Pi.star_apply, Complex.re_sum]
  apply Finset.sum_congr rfl
  intro k _
  rw [show (star (v k) * v k : ℂ) = v k * (starRingEnd ℂ) (v k) by
      rw [mul_comm]; rfl,
    Complex.mul_conj]
  simp

lemma re_dot_self_nonneg (v : Fin d → ℂ) : 0 ≤ (star v ⬝ᵥ v).re := by
  rw [re_dot_self_eq]
  exact Finset.sum_nonneg fun i _ => Complex.normSq_nonneg _

lemma eq_zero_of_re_dot_self (v : Fin d → ℂ) (h : (star v ⬝ᵥ v).re = 0) : v = 0 := by
  rw [re_dot_self_eq] at h
  funext i
  have hz := (Finset.sum_eq_zero_iff_of_nonneg
    (fun j _ => Complex.normSq_nonneg (v j))).mp h i (Finset.mem_univ i)
  exact Complex.normSq_eq_zero.mp hz

lemma cnorm_nonneg (v : Fin d → ℂ) : 0 ≤ cnorm v := Real.sqrt_nonneg _

lemma cnorm_sq (v : Fin d → ℂ) : cnorm v ^ 2 = (star v ⬝ᵥ v).re :=
  Real.sq_sqrt (re_dot_self_nonneg v)

lemma cnorm_eq_zero_iff (v : Fin d → ℂ) : cnorm v = 0 ↔ v = 0 := by
  constructor
  · intro h
    apply eq_zero_of_re_dot_self
    rw [← cnorm_sq, h]
    norm_num
  · intro h
    rw [h]
    unfold cnorm
    simp

lemma cnorm_smul_real (c : ℝ) (hc : 0 ≤ c) (v : Fin d → ℂ) :
    cnorm ((c : ℂ) • v) = c * cnorm v := by
  unfold cnorm
  rw [star_smul, smul_dotProduct, dotProduct_smul, smul_smul]
  rw [Complex.star_def, Complex.conj_ofReal, ← Complex.ofReal_mul, smul_eq_mul,
    Complex.re_ofReal_mul]
  rw [show c * c * (star v ⬝ᵥ v).re = c ^ 2 * (star v ⬝ᵥ v).re from by ring]
  rw [Real.sqrt_mul (sq_nonneg c), Real.sqrt_sq hc]

lemma cs_expand (x y : Fin d → ℂ) (a b : ℝ) :
    (star ((b : ℂ) • x - (a : ℂ) • y) ⬝ᵥ ((b : ℂ) • x - (a : ℂ) • y)).re =
      b ^ 2 * (star x ⬝ᵥ x).re - 2 * a * b * (star x ⬝ᵥ y).re +
        a ^ 2 * (star y ⬝ᵥ y).re := by
  have hyx : star y ⬝ᵥ x = star (star x ⬝ᵥ y) := dot_star_comm x y
  simp only [star_sub, star_smul, sub_dotProduct, dotProduct_sub, smul_dotProduct,
    dotProduct_smul, Complex.star_def, Complex.conj_ofReal, smul_eq_mul]
  rw [hyx]
  simp only [Complex.sub_re, Complex.add_re, Complex.mul_re, Complex.ofReal_re,
    Complex.ofReal_im, Complex.conj_re, Complex.conj_im,
    show ((starRingEnd ℂ) (star x ⬝ᵥ y)).re = (star x ⬝ᵥ y).re from Complex.conj_re _,
    show ((starRingEnd ℂ) (star x ⬝ᵥ y)).im = -(star x ⬝ᵥ y).im from Complex.conj_im _]
  rw [show (star (star x ⬝ᵥ y) : ℂ).re = (star x ⬝ᵥ y).re from Complex.conj_re _]
  ring

/-- Cauchy–Schwarz for the real part of the Hermitian dot product. -/
lemma re_dot_le_cnorm_mul (x y : Fin d → ℂ) :
    (star x ⬝ᵥ y).re ≤ cnorm x * cnorm y := by
  rcases eq_or_ne (cnorm x) 0 with hx | hx
  · have hx0 : x = 0 := (cnorm_eq_zero_iff x).mp hx
    subst hx0
    rw [hx]
    simp
  rcases eq_or_ne (cnorm y) 0 with hy | hy
  · have hy0 : y = 0 := (cnorm_eq_zero_iff y).mp hy
    subst hy0
    rw [hy, mul_zero]
    simp
  have hxpos : 0 < cnorm x := lt_of_le_of_ne (cnorm_nonneg x) (Ne.symm hx)
  have hypos : 0 < cnorm y := lt_of_le_of_ne (cnorm_nonneg y) (Ne.symm hy)
  have h0 := re_dot_self_nonneg ((cnorm y : ℂ) • x - (cnorm x : ℂ) • y)
  rw [cs_expand x y (cnorm x) (cnorm y)] at h0
  rw [show (star x ⬝ᵥ x).re = cnorm x ^ 2 from (cnorm_sq x).symm,
    show (star y ⬝ᵥ y).re = cnorm y ^ 2 from (cnorm_sq y).symm] at h0
  nlinarith [mul_pos hxpos hypos]

/-- Equality case of Cauchy–Schwarz: the two vectors are proportional. -/
lemma cs_eq_case (x y : Fin d → ℂ)
    (h : (star x ⬝ᵥ y).re = cnorm x * cnorm y) :
    (cnorm y : ℂ) • x = (cnorm x : ℂ) • y := by
  have h0 := re_dot_self_nonneg ((cnorm y : ℂ) • x - (cnorm x : ℂ) • y)
  have hexp := cs_expand x y (cnorm x) (cnorm y)
  rw [cnorm_sq, cnorm_sq] at hexp
  have hzero : (star ((cnorm y : ℂ) • x - (cnorm x : ℂ) • y) ⬝ᵥ
      ((cnorm y : ℂ) • x - (cnorm x : ℂ) • y)).re = 0 := by
    rw [hexp, h, show (star x ⬝ᵥ x).re = cnorm x ^ 2 from (cnorm_sq x).symm,
      show (star y ⬝ᵥ y).re = cnorm y ^ 2 from (cnorm_sq y).symm]
    ring
  have hsub : (cnorm y : ℂ) • x - (cnorm x : ℂ) • y = 0 :=
    eq_zero_of_re_dot_self _ hzero
  exact sub_eq_zero.mp hsub

lemma eq_zero_of_re_trace_conjTranspose_mul_self {X : Matrix (Fin d) (Fin d) ℂ}
    (h : ((Xᴴ * X).trace).re = 0) : X = 0 := by
  have hsum : ((Xᴴ * X).trace).re = ∑ j, ∑ i, Complex.normSq (X i j) := by
    simp only [Matrix.trace, Matrix.diag, Matrix.mul_apply, Matrix.conjTranspose_apply,
      Complex.re_sum]
    apply Finset.sum_congr rfl
    intro j _
    apply Finset.sum_congr rfl
    intro i _
    rw [show (star (X i j) * X i j : ℂ) = X i j * (starRingEnd ℂ) (X i j) from by
        rw [mul_comm]; rfl,
      Complex.mul_conj]
    simp
  rw [hsum] at h
  ext i j
  have hj := (Finset.sum_eq_zero_iff_of_nonneg
    (fun j _ => Finset.sum_nonneg fun i _ => Complex.normSq_nonneg (X i j))).mp h j
    (Finset.mem_univ j)
  have hi := (Finset.sum_eq_zero_iff_of_nonneg
    (fun i _ => Complex.normSq_nonneg (X i j))).mp hj i (Finset.mem_univ i)
  simpa using Complex.normSq_eq_zero.mp hi

end DotToolkit

/- ### Eigen-apparatus: columns of the eigenvector unitary -/

section EigenApparatus

variable {d : ℕ}

lemma col_eq_mulVec_single (V : Matrix (Fin d) (Fin d) ℂ) (i : Fin d) :
    (fun k => V k i) = V *ᵥ Pi.single i 1 := by
  funext k
  rw [mulVec_single]
  exact (mul_one _).symm

/-- Action of `V * diagonal f * Vᴴ` on the `i`-th column of `V`. -/
lemma conj_diag_mulVec_col (V : Matrix (Fin d) (Fin d) ℂ) (f : Fin d → ℂ) (i : Fin d)
    (hV : star V * V = 1) :
    (V * diagonal f * star V) *ᵥ (fun k => V k i) = f i • ((fun k => V k i) : Fin d → ℂ) := by
  rw [col_eq_mulVec_single, mulVec_mulVec]
  have hcollapse : V * diagonal f * star V * V = V * diagonal f := by
    rw [mul_assoc, hV, mul_one]
  rw [hcollapse, ← mulVec_mulVec, diagonal_mulVec_single]
  have hsingle : (Pi.single i (f i * 1) : Fin d → ℂ) = f i • (Pi.single i 1 : Fin d → ℂ) := by
    funext k
    simp [Pi.single_apply, mul_ite]
  rw [hsingle, mulVec_smul]

lemma eigcol_orthonormal (V : Matrix (Fin d) (Fin d) ℂ) (hV : star V * V = 1) (i j : Fin d) :
    star (fun k => V k i) ⬝ᵥ (fun k => V k j) = if i = j then 1 else 0 := by
  have h := congrFun (congrFun hV i) j
  rw [Matrix.mul_apply] at h
  rw [show ((1 : Matrix (Fin d) (Fin d) ℂ) i j) = if i = j then 1 else 0 from Matrix.one_apply]
    at h
  rw [← h]
  apply Finset.sum_congr rfl
  intro k _
  rw [Matrix.star_apply]
  rfl

lemma quadratic_eq_conj_diag (V N : Matrix (Fin d) (Fin d) ℂ) (i : Fin d) :
    star (fun k => V k i) ⬝ᵥ (N *ᵥ (fun k => V k i)) = (star V * N * V) i i := by
  rw [show star V * N * V = star V * (N * V) from by rw [mul_assoc], Matrix.mul_apply]
  apply Finset.sum_congr rfl
  intro k _
  rw [Matrix.mul_apply, Matrix.star_apply]
  simp only [Pi.star_apply, Matrix.mulVec, dotProduct]

lemma sum_quadratic_eq_trace (V N : Matrix (Fin d) (Fin d) ℂ) (hV : V * star V = 1) :
    ∑ i, (star (fun k => V k i) ⬝ᵥ (N *ᵥ (fun k => V k i))) = N.trace := by
  have : ∑ i, (star (fun k => V k i) ⬝ᵥ (N *ᵥ (fun k => V k i))) =
      (star V * N * V).trace := by
    rw [show (star V * N * V).trace = ∑ i, (star V * N * V) i i from rfl]
    exact Finset.sum_congr rfl fun i _ => quadratic_eq_conj_diag V N i
  rw [this, trace_mul_cycle, hV, one_mul]

lemma star_mulVec_dot (X : Matrix (Fin d) (Fin d) ℂ) (y z : Fin d → ℂ) :
    star (X *ᵥ y) ⬝ᵥ z = star y ⬝ᵥ (Xᴴ *ᵥ z) := by
  rw [Matrix.star_mulVec, ← Matrix.dotProduct_mulVec]

lemma matrix_eq_of_col_action (X Y V : Matrix (Fin d) (Fin d) ℂ) (hV : V * star V = 1)
    (h : ∀ i, X *ᵥ (fun k => V k i) = Y *ᵥ (fun k => V k i)) : X = Y := by
  have hXV : X * V = Y * V := by
    ext k i
    have hcol := congrFun (h i) k
    simpa [Matrix.mul_apply, Matrix.mulVec, dotProduct] using hcol
  calc X = X * (V * star V) := by rw [hV, mul_one]
    _ = X * V * star V := by rw [mul_assoc]
    _ = Y * V * star V := by rw [hXV]
    _ = Y * (V * star V) := by rw [mul_assoc]
    _ = Y := by rw [hV, mul_one]

lemma trace_mul_vecMulVec (N : Matrix (Fin d) (Fin d) ℂ) (v : Fin d → ℂ) :
    (N * vecMulVec v (star v)).trace = star v ⬝ᵥ (N *ᵥ v) := by
  simp only [Matrix.trace, Matrix.diag, Matrix.mul_apply, vecMulVec_apply, dotProduct,
    Matrix.mulVec, Pi.star_apply]
  apply Finset.sum_congr rfl
  intro i _
  rw [Finset.mul_sum]
  apply Finset.sum_congr rfl
  intro k _
  ring

end EigenApparatus

/- ### Rank-one (outer product) matrices -/

section VecMulVec

variable {d : ℕ}

lemma vecMulVec_mul_vecMulVec (a b c e : Fin d → ℂ) :
    vecMulVec a b * vecMulVec c e = (b ⬝ᵥ c) • vecMulVec a e := by
  ext i j
  simp only [Matrix.mul_apply, vecMulVec_apply, Matrix.smul_apply, smul_eq_mul, dotProduct,
    Finset.sum_mul]
  apply Finset.sum_congr rfl
  intro k _
  ring

lemma vecMulVec_mulVec (ψ x : Fin d → ℂ) :
    vecMulVec ψ (star ψ) *ᵥ x = (star ψ ⬝ᵥ x) • ψ := by
  ext i
  simp only [Matrix.mulVec, vecMulVec_apply, dotProduct, Pi.smul_apply, smul_eq_mul,
    Pi.star_apply]
  rw [Finset.sum_mul]
  apply Finset.sum_congr rfl
  intro k _
  ring

lemma posSemidef_vecMulVec (ψ : Fin d → ℂ) : (vecMulVec ψ (star ψ)).PosSemidef := by
  constructor
  · ext i j
    simp only [Matrix.conjTranspose_apply, vecMulVec_apply, Pi.star_apply, star_mul', star_star]
    ring
  · intro x
    rw [vecMulVec_mulVec, dotProduct_smul]
    have hz : star x ⬝ᵥ ψ = star (star ψ ⬝ᵥ x) := by
      simp only [dotProduct, Pi.star_apply, star_sum, star_mul', star_star]
      apply Finset.sum_congr rfl
      intro k _
      ring
    rw [smul_eq_mul, hz]
    exact mul_star_self_nonneg _

lemma trace_vecMulVec (ψ : Fin d → ℂ) :
    (vecMulVec ψ (star ψ)).trace = star ψ ⬝ᵥ ψ := by
  simp only [Matrix.trace, Matrix.diag, vecMulVec_apply, dotProduct, Pi.star_apply]
  apply Finset.sum_congr rfl
  intro k _
  ring

end VecMulVec

/- ### The trace-norm bound `Tr √((AB)(AB)ᴴ) ≤ 1` and its equality case -/

section MasterBound

variable {d : ℕ}

/-- For PSD `A`, `B` with `Tr A² = Tr B² = 1`:
`Tr √((AB)(AB)ᴴ) ≤ 1`, with equality only if `A = B`.  This is the
Cauchy–Schwarz bound `‖AB‖₁ ≤ ‖A‖₂‖B‖₂` for the trace norm, together with its
equality analysis. -/
lemma trace_sqrt_mul_le_one_and_eq {A B : Matrix (Fin d) (Fin d) ℂ}
    (hA : A.PosSemidef) (hB : B.PosSemidef)
    (hTrA : ((A * A).trace).re = 1) (hTrB : ((B * B).trace).re = 1) :
    (matrix_sqrt ((A * B) * (A * B)ᴴ)).trace.re ≤ 1 ∧
      ((matrix_sqrt ((A * B) * (A * B)ᴴ)).trace.re = 1 → A = B) := by
  classical
  have hABH : (A * B)ᴴ = B * A := by rw [conjTranspose_mul, hA.1.eq, hB.1.eq]
  have hM : ((A * B) * (A * B)ᴴ).PosSemidef := posSemidef_self_mul_conjTranspose (A * B)
  set lam : Fin d → ℝ := hM.1.eigenvalues with hlamdef
  have hlam0 : ∀ i, 0 ≤ lam i := fun i => hM.eigenvalues_nonneg i
  set V : Matrix (Fin d) (Fin d) ℂ := (hM.1.eigenvectorUnitary : Matrix (Fin d) (Fin d) ℂ)
    with hVdef
  have hV1 : V * star V = 1 := Matrix.mem_unitaryGroup_iff.mp hM.1.eigenvectorUnitary.2
  have hV2 : star V * V = 1 := Matrix.UnitaryGroup.star_mul_self hM.1.eigenvectorUnitary
  set u : Fin d → Fin d → ℂ := fun i => (fun k => V k i) with hudef
  have hMcol : ∀ i, ((A * B) * (A * B)ᴴ) *ᵥ u i = ((lam i : ℝ) : ℂ) • u i := by
    intro i
    conv_lhs => rw [hM.1.spectral_theorem]
    exact conj_diag_mulVec_col V (RCLike.ofReal ∘ lam) i hV2
  set a : Fin d → Fin d → ℂ := fun i => A *ᵥ u i with hadef
  set w : Fin d → Fin d → ℂ := fun i => (A * B)ᴴ *ᵥ u i with hwdef
  have hw_eq : ∀ i, w i = B *ᵥ a i := by
    intro i
    show (A * B)ᴴ *ᵥ u i = B *ᵥ a i
    rw [hABH, ← mulVec_mulVec]
  have hw_dot : ∀ i j, star (w i) ⬝ᵥ w j = if i = j then ((lam j : ℝ) : ℂ) else 0 := by
    intro i j
    show star ((A * B)ᴴ *ᵥ u i) ⬝ᵥ ((A * B)ᴴ *ᵥ u j) = _
    rw [star_mulVec_dot, conjTranspose_conjTranspose, mulVec_mulVec, hMcol j,
      dotProduct_smul, smul_eq_mul, eigcol_orthonormal V hV2 i j]
    rw [mul_ite, mul_one, mul_zero]
  set t : Fin d → ℝ := fun i => Real.sqrt (lam i) with htdef
  set p : Fin d → ℝ := fun i => cnorm (a i) with hpdef
  set r : Fin d → ℝ := fun i => if lam i = 0 then 0 else cnorm (B *ᵥ w i) / t i with hrdef
  have htnn : ∀ i, 0 ≤ t i := fun i => Real.sqrt_nonneg _
  have hpnn : ∀ i, 0 ≤ p i := fun i => cnorm_nonneg _
  have hrnn : ∀ i, 0 ≤ r i := by
    intro i
    show (if lam i = 0 then 0 else cnorm (B *ᵥ w i) / t i) ≥ 0
    split
    · exact le_refl 0
    · exact div_nonneg (cnorm_nonneg _) (htnn i)
  have htrace_re : (matrix_sqrt ((A * B) * (A * B)ᴴ)).trace.re = ∑ i, t i :=
    re_trace_matrix_sqrt hM
  -- pointwise bound `t i ≤ p i * r i`, an equality when the per-index
  -- Cauchy–Schwarz step is tight
  have hdot_lam : ∀ i, (star (a i) ⬝ᵥ (B *ᵥ w i)).re = lam i := by
    intro i
    have h2 := star_mulVec_dot B (a i) (w i)
    rw [hB.1.eq] at h2
    rw [← h2, ← hw_eq i, hw_dot i i, if_pos rfl, Complex.ofReal_re]
  have hkey : ∀ i, t i ≤ p i * r i := by
    intro i
    by_cases h0 : lam i = 0
    · have ht0 : t i = 0 := by
        show Real.sqrt (lam i) = 0
        rw [h0, Real.sqrt_zero]
      have hr0 : r i = 0 := by
        show (if lam i = 0 then 0 else cnorm (B *ᵥ w i) / t i) = 0
        rw [if_pos h0]
      rw [ht0, hr0, mul_zero]
    · have hlpos : 0 < lam i := lt_of_le_of_ne (hlam0 i) (Ne.symm h0)
      have htpos : 0 < t i := Real.sqrt_pos.mpr hlpos
      have hCS : (star (a i) ⬝ᵥ (B *ᵥ w i)).re ≤ cnorm (a i) * cnorm (B *ᵥ w i) :=
        re_dot_le_cnorm_mul _ _
      have hBw : cnorm (B *ᵥ w i) = r i * t i := by
        show cnorm (B *ᵥ w i) = (if lam i = 0 then 0 else cnorm (B *ᵥ w i) / t i) * t i
        rw [if_neg h0]
        field_simp
      have hlam_t : lam i = t i * t i := (Real.mul_self_sqrt (hlam0 i)).symm
      rw [hdot_lam i, hBw] at hCS
      have hCS2 : t i * t i ≤ p i * r i * t i := by
        rw [← hlam_t]
        calc lam i ≤ p i * (r i * t i) := hCS
          _ = p i * r i * t i := by ring
      exact (mul_le_mul_right htpos).mp hCS2
  -- `∑ p i ² = 1` (the columns are a full orthonormal basis)
  have hsum_p : ∑ i, p i ^ 2 = 1 := by
    have hterm : ∀ i, p i ^ 2 = (star (u i) ⬝ᵥ ((A * A) *ᵥ u i)).re := by
      intro i
      show cnorm (a i) ^ 2 = _
      rw [cnorm_sq]
      congr 1
      have h2 := star_mulVec_dot A (u i) (a i)
      rw [hA.1.eq] at h2
      show star (A *ᵥ u i) ⬝ᵥ (a i) = _
      rw [h2]
      congr 1
      show A *ᵥ (A *ᵥ u i) = (A * A) *ᵥ u i
      rw [mulVec_mulVec]
    rw [Finset.sum_congr rfl fun i _ => hterm i, ← Complex.re_sum,
      sum_quadratic_eq_trace V (A * A) hV1, hTrA]
  -- `w i = 0` whenever `lam i = 0`
  have hw0 : ∀ i, lam i = 0 → w i = 0 := by
    intro i h0
    apply eq_zero_of_re_dot_self
    rw [hw_dot i i, if_pos rfl, h0]
    simp
  -- normalized right singular vectors
  set v : Fin d → Fin d → ℂ := fun i => (((t i)⁻¹ : ℝ) : ℂ) • w i with hvdef
  set s : Finset (Fin d) := Finset.univ.filter (fun i => lam i ≠ 0) with hsdef
  have hmem_s : ∀ i, i ∈ s ↔ lam i ≠ 0 := by
    intro i
    rw [hsdef, Finset.mem_filter]
    simp
  have ht_ne : ∀ i ∈ s, t i ≠ 0 := by
    intro i hi
    have := (hmem_s i).mp hi
    show Real.sqrt (lam i) ≠ 0
    rw [Real.sqrt_ne_zero (hlam0 i)]
    exact this
  have hv_dot : ∀ i j, star (v i) ⬝ᵥ v j =
      ((((t i)⁻¹ * (t j)⁻¹ : ℝ)) : ℂ) * (star (w i) ⬝ᵥ w j) := by
    intro i j
    show star ((((t i)⁻¹ : ℝ) : ℂ) • w i) ⬝ᵥ ((((t j)⁻¹ : ℝ) : ℂ) • w j) = _
    rw [star_smul, smul_dotProduct, dotProduct_smul, smul_smul, smul_eq_mul,
      Complex.star_def, Complex.conj_ofReal, ← Complex.ofReal_mul]
  have hv_orth : ∀ i ∈ s, ∀ j, star (v i) ⬝ᵥ v j = if i = j then 1 else 0 := by
    intro i hi j
    rw [hv_dot i j, hw_dot i j]
    by_cases hij : i = j
    · subst hij
      rw [if_pos rfl, if_pos rfl, ← Complex.ofReal_mul]
      have hti := ht_ne i hi
      have : (t i)⁻¹ * (t i)⁻¹ * lam i = 1 := by
        rw [show lam i = t i * t i from (Real.mul_self_sqrt (hlam0 i)).symm]
        field_simp
      rw [this, Complex.ofReal_one]
    · rw [if_neg hij, if_neg hij, mul_zero]
  -- the orthogonal projection onto the span of the `v i`
  set Q : Matrix (Fin d) (Fin d) ℂ := ∑ i ∈ s, vecMulVec (v i) (star (v i)) with hQdef
  have hQherm : Qᴴ = Q := by
    rw [hQdef, conjTranspose_sum]
    exact Finset.sum_congr rfl fun i _ => (posSemidef_vecMulVec (v i)).1
  have hQidem : Q * Q = Q := by
    rw [hQdef, Finset.sum_mul_sum]
    have hinner : ∀ i ∈ s, (∑ j ∈ s, vecMulVec (v i) (star (v i)) *
        vecMulVec (v j) (star (v j))) = vecMulVec (v i) (star (v i)) := by
      intro i hi
      have hterm : ∀ j ∈ s, vecMulVec (v i) (star (v i)) * vecMulVec (v j) (star (v j)) =
          if i = j then vecMulVec (v i) (star (v j)) else 0 := by
        intro j hj
        rw [vecMulVec_mul_vecMulVec, hv_orth i hi j]
        split
        · rw [one_smul]
        · rw [zero_smul]
      rw [Finset.sum_congr rfl hterm, Finset.sum_ite_eq s i
        (fun j => vecMulVec (v i) (star (v j))), if_pos hi]
    exact Finset.sum_congr rfl hinner
  have hQcompl : (1 - Q).PosSemidef := by
    have h1 : (1 - Q)ᴴ = 1 - Q := by
      rw [conjTranspose_sub, conjTranspose_one, hQherm]
    have h2 : (1 - Q) * (1 - Q) = 1 - Q := by
      rw [sub_mul, one_mul, mul_sub, mul_one, hQidem, sub_self, sub_zero]
    have h3 : 1 - Q = (1 - Q)ᴴ * (1 - Q) := by rw [h1, h2]
    rw [h3]
    exact posSemidef_conjTranspose_mul_self _
  have hBB : (B * B).PosSemidef := by
    have h := posSemidef_self_mul_conjTranspose B
    rwa [hB.1.eq] at h
  -- `∑ r i ² ≤ 1` with explicit slack `Tr[B²(1−Q)] ≥ 0`
  have hterm_r : ∀ i ∈ s, r i ^ 2 = (star (v i) ⬝ᵥ ((B * B) *ᵥ v i)).re := by
    intro i hi
    have h0 : lam i ≠ 0 := (hmem_s i).mp hi
    have hti := ht_ne i hi
    have hBv : B *ᵥ v i = (((t i)⁻¹ : ℝ) : ℂ) • (B *ᵥ w i) := by
      show B *ᵥ ((((t i)⁻¹ : ℝ) : ℂ) • w i) = _
      rw [mulVec_smul]
    have hr_eq : r i = cnorm (B *ᵥ v i) := by
      rw [hBv, cnorm_smul_real _ (inv_nonneg.mpr (htnn i))]
      show (if lam i = 0 then 0 else cnorm (B *ᵥ w i) / t i) = (t i)⁻¹ * cnorm (B *ᵥ w i)
      rw [if_neg h0]
      field_simp
    rw [hr_eq, cnorm_sq]
    congr 1
    have h2 := star_mulVec_dot B (v i) (B *ᵥ v i)
    rw [hB.1.eq] at h2
    rw [h2]
    congr 1
    rw [mulVec_mulVec]
  have htraceQ : ∑ i ∈ s, (star (v i) ⬝ᵥ ((B * B) *ᵥ v i)) = ((B * B) * Q).trace := by
    rw [hQdef, Finset.mul_sum, trace_sum]
    exact Finset.sum_congr rfl fun i _ => (trace_mul_vecMulVec (B * B) (v i)).symm
  have hslack : 0 ≤ (((B * B) * (1 - Q)).trace).re := re_trace_mul_nonneg hBB hQcompl
  have hsum_r_eq : ∑ i, r i ^ 2 = (((B * B) * Q).trace).re := by
    rw [← Finset.sum_subset (Finset.subset_univ s)]
    · rw [Finset.sum_congr rfl hterm_r, ← Complex.re_sum, htraceQ]
    · intro i _ hi
      have h0 : ¬ lam i ≠ 0 := by
        intro hne
        exact hi ((hmem_s i).mpr hne)
      push_neg at h0
      have : r i = 0 := by
        show (if lam i = 0 then 0 else cnorm (B *ᵥ w i) / t i) = 0
        rw [if_pos h0]
      rw [this]
      norm_num
  have hsum_r : ∑ i, r i ^ 2 ≤ 1 := by
    have hexpand : ((B * B) * (1 - Q)).trace = (B * B).trace - ((B * B) * Q).trace := by
      rw [mul_sub, mul_one, trace_sub]
    have := hslack
    rw [hexpand, Complex.sub_re] at this
    rw [hsum_r_eq]
    linarith [hTrB]
  -- the chain
  have hchain : ∑ i, t i ≤ 1 := by
    calc ∑ i, t i ≤ ∑ i, p i * r i := Finset.sum_le_sum fun i _ => hkey i
      _ ≤ Real.sqrt (∑ i, p i ^ 2) * Real.sqrt (∑ i, r i ^ 2) :=
          Real.sum_mul_le_sqrt_mul_sqrt _ _ _
      _ ≤ 1 := by
          rw [hsum_p, Real.sqrt_one, one_mul]
          exact Real.sqrt_le_one.mpr hsum_r
  constructor
  · rw [htrace_re]
    exact hchain
  -- now the equality case
  intro heq1
  rw [htrace_re] at heq1
  -- all inequalities in the chain are tight
  have hsum_pr : ∑ i, p i * r i = 1 := by
    have hle1 : ∑ i, t i ≤ ∑ i, p i * r i := Finset.sum_le_sum fun i _ => hkey i
    have hle2 : ∑ i, p i * r i ≤ 1 := by
      calc ∑ i, p i * r i ≤ Real.sqrt (∑ i, p i ^ 2) * Real.sqrt (∑ i, r i ^ 2) :=
            Real.sum_mul_le_sqrt_mul_sqrt _ _ _
        _ ≤ 1 := by
            rw [hsum_p, Real.sqrt_one, one_mul]
            exact Real.sqrt_le_one.mpr hsum_r
    linarith
  have hsum_r1 : ∑ i, r i ^ 2 = 1 := by
    have h1 : (1 : ℝ) ≤ Real.sqrt (∑ i, r i ^ 2) := by
      have := Real.sum_mul_le_sqrt_mul_sqrt Finset.univ p r
      rw [hsum_p, Real.sqrt_one, one_mul, hsum_pr] at this
      exact this
    have hnn : 0 ≤ ∑ i, r i ^ 2 := Finset.sum_nonneg fun i _ => sq_nonneg _
    have h2 : (1 : ℝ) ≤ ∑ i, r i ^ 2 := by
      have hmul := mul_le_mul h1 h1 (by norm_num) (Real.sqrt_nonneg _)
      rwa [one_mul, Real.mul_self_sqrt hnn] at hmul
    linarith [hsum_r]
  -- `p = r` pointwise, from `∑(p−r)² = 0`
  have hpr : ∀ i, p i = r i := by
    have hexp : ∑ i, (p i - r i) ^ 2 =
        (∑ i, p i ^ 2) - 2 * (∑ i, p i * r i) + ∑ i, r i ^ 2 := by
      have hterm : ∀ i, (p i - r i) ^ 2 = p i ^ 2 - 2 * (p i * r i) + r i ^ 2 :=
        fun i => by ring
      rw [Finset.sum_congr rfl fun i _ => hterm i, Finset.sum_add_distrib,
        Finset.sum_sub_distrib, ← Finset.mul_sum]
    have hzero : ∑ i, (p i - r i) ^ 2 = 0 := by
      rw [hexp, hsum_p, hsum_pr, hsum_r1]
      ring
    intro i
    have hsq := (Finset.sum_eq_zero_iff_of_nonneg
      (fun j _ => sq_nonneg (p j - r j))).mp hzero i (Finset.mem_univ i)
    have h2 : p i - r i = 0 := by
      exact pow_eq_zero_iff (two_ne_zero) |>.mp hsq
    linarith
  -- the per-index Cauchy–Schwarz steps are tight as well
  have htpr : ∀ i, t i = p i * r i := by
    have hsum_t_pr : ∑ i, t i = ∑ i, p i * r i := by rw [heq1, hsum_pr]
    exact fun i => (Finset.sum_eq_sum_iff_of_le fun j _ => hkey j).mp hsum_t_pr i
      (Finset.mem_univ i)
  -- every `a i = A *ᵥ u i` is an eigenvector of `B*B` with eigenvalue `t i`
  have hBBa : ∀ i, (B * B) *ᵥ a i = ((t i : ℝ) : ℂ) • a i := by
    intro i
    by_cases h0 : lam i = 0
    · have hw' : B *ᵥ a i = 0 := by rw [← hw_eq i]; exact hw0 i h0
      have ht0 : t i = 0 := by
        show Real.sqrt (lam i) = 0
        rw [h0, Real.sqrt_zero]
      rw [ht0, ← mulVec_mulVec, hw']
      simp
    · have hlpos : 0 < lam i := lt_of_le_of_ne (hlam0 i) (Ne.symm h0)
      have htpos : 0 < t i := Real.sqrt_pos.mpr hlpos
      have hBw : cnorm (B *ᵥ w i) = r i * t i := by
        show cnorm (B *ᵥ w i) = (if lam i = 0 then 0 else cnorm (B *ᵥ w i) / t i) * t i
        rw [if_neg h0]
        field_simp
      have hCSeq : (star (a i) ⬝ᵥ (B *ᵥ w i)).re = cnorm (a i) * cnorm (B *ᵥ w i) := by
        rw [hdot_lam i, hBw,
          show lam i = t i * t i from (Real.mul_self_sqrt (hlam0 i)).symm, htpr i]
        show p i * r i * (p i * r i) = p i * (r i * (p i * r i))
        ring
      have hprop := cs_eq_case _ _ hCSeq
      rw [hBw] at hprop
      by_cases hp0 : p i = 0
      · have ha0 : a i = 0 := (cnorm_eq_zero_iff _).mp hp0
        rw [ha0]
        simp
      · have hBw_eq : B *ᵥ w i = (B * B) *ᵥ a i := by rw [hw_eq i, mulVec_mulVec]
        have hcn : cnorm (a i) = p i := rfl
        rw [hBw_eq, hcn] at hprop
        have hr_eq_p : r i = p i := (hpr i).symm
        rw [hr_eq_p] at hprop
        -- hprop : ((p i * t i : ℝ) : ℂ) • a i = ((p i : ℝ) : ℂ) • ((B*B) *ᵥ a i)
        have hstep : ((p i : ℝ) : ℂ) • ((B * B) *ᵥ a i) =
            ((p i : ℝ) : ℂ) • (((t i : ℝ) : ℂ) • a i) := by
          rw [smul_smul, ← Complex.ofReal_mul]
          exact hprop.symm
        have hpne : ((p i : ℝ) : ℂ) ≠ 0 := Complex.ofReal_ne_zero.mpr hp0
        exact smul_right_injective (Fin d → ℂ) hpne hstep
  -- hence `(B*B)·A = A·√((AB)(AB)ᴴ)`, so `A*A` and `B*B` commute
  have hScol : ∀ i, (matrix_sqrt ((A * B) * (A * B)ᴴ)) *ᵥ u i = ((t i : ℝ) : ℂ) • u i := by
    intro i
    rw [matrix_sqrt_of_posSemidef hM, Matrix.PosSemidef.sqrt]
    exact conj_diag_mulVec_col V (RCLike.ofReal ∘ Real.sqrt ∘ lam) i hV2
  have hcolAS : ∀ i, ((B * B) * A) *ᵥ u i =
      (A * matrix_sqrt ((A * B) * (A * B)ᴴ)) *ᵥ u i := by
    intro i
    have hleft : ((B * B) * A) *ᵥ u i = (B * B) *ᵥ (A *ᵥ u i) :=
      (mulVec_mulVec _ _ _).symm
    have hright : (A * matrix_sqrt ((A * B) * (A * B)ᴴ)) *ᵥ u i =
        A *ᵥ (matrix_sqrt ((A * B) * (A * B)ᴴ) *ᵥ u i) :=
      (mulVec_mulVec _ _ _).symm
    rw [hleft, hright, hScol i, mulVec_smul]
    exact hBBa i
  have hAS : (B * B) * A = A * matrix_sqrt ((A * B) * (A * B)ᴴ) :=
    matrix_eq_of_col_action _ _ V hV1 hcolAS
  have hAApsd : (A * A).PosSemidef := by
    have h := posSemidef_self_mul_conjTranspose A
    rwa [hA.1.eq] at h
  have hSh : (matrix_sqrt ((A * B) * (A * B)ᴴ))ᴴ = matrix_sqrt ((A * B) * (A * B)ᴴ) :=
    matrix_sqrt_herm hM
  have hσρ : (B * B) * (A * A) = (A * A) * (B * B) := by
    have h1 : (B * B) * (A * A) = A * matrix_sqrt ((A * B) * (A * B)ᴴ) * A := by
      calc (B * B) * (A * A) = ((B * B) * A) * A := by simp only [mul_assoc]
        _ = A * matrix_sqrt ((A * B) * (A * B)ᴴ) * A := by rw [hAS]
    have h2 : (A * matrix_sqrt ((A * B) * (A * B)ᴴ) * A)ᴴ =
        A * matrix_sqrt ((A * B) * (A * B)ᴴ) * A := by
      rw [conjTranspose_mul, conjTranspose_mul, hA.1.eq, hSh]
      simp only [mul_assoc]
    have h3 : ((B * B) * (A * A))ᴴ = (A * A) * (B * B) := by
      rw [conjTranspose_mul, hAApsd.1.eq, hBB.1.eq]
    calc (B * B) * (A * A) = A * matrix_sqrt ((A * B) * (A * B)ᴴ) * A := h1
      _ = (A * matrix_sqrt ((A * B) * (A * B)ᴴ) * A)ᴴ := h2.symm
      _ = ((B * B) * (A * A))ᴴ := by rw [h1]
      _ = (A * A) * (B * B) := h3
  have hcomm1 : (B * B) * A = A * (B * B) := by
    have h := commute_matrix_sqrt hAApsd hσρ
    rwa [matrix_sqrt_sq hA] at h
  have hcomm2 : A * B = B * A := by
    have h := commute_matrix_sqrt hBB hcomm1.symm
    rwa [matrix_sqrt_sq hB] at h
  have hcomm3 : B * matrix_sqrt A = matrix_sqrt A * B :=
    commute_matrix_sqrt hA hcomm2.symm
  have hABherm : (A * B)ᴴ = A * B := by rw [hABH, hcomm2]
  have hABpsd : (A * B).PosSemidef := by
    have hsplit : A * B = (matrix_sqrt A)ᴴ * B * matrix_sqrt A := by
      rw [matrix_sqrt_herm hA]
      calc A * B = matrix_sqrt A * matrix_sqrt A * B := by rw [matrix_sqrt_mul_self hA]
        _ = matrix_sqrt A * (matrix_sqrt A * B) := by rw [mul_assoc]
        _ = matrix_sqrt A * (B * matrix_sqrt A) := by rw [← hcomm3]
        _ = matrix_sqrt A * B * matrix_sqrt A := by rw [← mul_assoc]
    rw [hsplit]
    exact hB.conjTranspose_mul_mul_same _
  have hSAB : matrix_sqrt ((A * B) * (A * B)ᴴ) = A * B :=
    matrix_sqrt_unique hABpsd hM (by rw [hABherm])
  have htr1 : ((A * B).trace).re = 1 := by
    rw [← hSAB, htrace_re]
    exact heq1
  -- `Tr[(A−B)ᴴ(A−B)] = 0`
  have hdiff : (((A - B)ᴴ * (A - B)).trace).re = 0 := by
    have hexp : (A - B)ᴴ * (A - B) = A * A - A * B - B * A + B * B := by
      rw [conjTranspose_sub, hA.1.eq, hB.1.eq]
      rw [sub_mul, mul_sub, mul_sub]
      abel
    rw [hexp]
    have hBAtr : ((B * A).trace).re = 1 := by rw [trace_mul_comm]; exact htr1
    rw [trace_add, trace_sub, trace_sub, Complex.add_re, Complex.sub_re, Complex.sub_re,
      hTrA, hTrB, htr1, hBAtr]
    ring
  have hAB0 : A - B = 0 := eq_zero_of_re_trace_conjTranspose_mul_self hdiff
  exact sub_eq_zero.mp hAB0

end MasterBound

/- ### Fidelity: basic structure -/

section FidelityBasic

variable {d : ℕ} {ρ σ : Matrix (Fin d) (Fin d) ℂ}

/-- The argument of the outer square root in the fidelity, written as `C * Cᴴ`
for `C = √ρ·√σ`. -/
lemma fidelity_arg_eq (hρ : ρ.PosSemidef) (hσ : σ.PosSemidef) :
    matrix_sqrt ρ * σ * matrix_sqrt ρ =
      (matrix_sqrt ρ * matrix_sqrt σ) * (matrix_sqrt ρ * matrix_sqrt σ)ᴴ := by
  have hρh : (matrix_sqrt ρ)ᴴ = matrix_sqrt ρ := by
    rw [matrix_sqrt_of_posSemidef hρ]; exact hρ.posSemidef_sqrt.1
  have hσh : (matrix_sqrt σ)ᴴ = matrix_sqrt σ := by
    rw [matrix_sqrt_of_posSemidef hσ]; exact hσ.posSemidef_sqrt.1
  have hσs : matrix_sqrt σ * matrix_sqrt σ = σ := by
    rw [matrix_sqrt_of_posSemidef hσ]; exact hσ.sqrt_mul_self
  rw [Matrix.conjTranspose_mul, hρh, hσh]
  rw [show matrix_sqrt ρ * matrix_sqrt σ * (matrix_sqrt σ * matrix_sqrt ρ)
      = matrix_sqrt ρ * (matrix_sqrt σ * matrix_sqrt σ) * matrix_sqrt ρ by
    simp only [mul_assoc]]
  rw [hσs]

/-- `Tr √(C·Cᴴ) = Tr √(Cᴴ·C)` — the heart of fidelity symmetry. -/
lemma trace_matrix_sqrt_conj_comm (C : Matrix (Fin d) (Fin d) ℂ) :
    (matrix_sqrt (C * Cᴴ)).trace = (matrix_sqrt (Cᴴ * C)).trace := by
  classical
  have h1 : (C * Cᴴ).PosSemidef := posSemidef_self_mul_conjTranspose C
  have h2 : (Cᴴ * C).PosSemidef := posSemidef_conjTranspose_mul_self C
  obtain ⟨p, hp⟩ := exists_interpolating_sqrt
    (Finset.image h1.1.eigenvalues Finset.univ ∪ Finset.image h2.1.eigenvalues Finset.univ)
  rw [matrix_sqrt_eq_aeval h1 (fun i => Finset.mem_union_left _
        (Finset.mem_image_of_mem _ (Finset.mem_univ i))) hp,
      matrix_sqrt_eq_aeval h2 (fun i => Finset.mem_union_right _
        (Finset.mem_image_of_mem _ (Finset.mem_univ i))) hp]
  exact trace_aeval_mul_comm C Cᴴ p

/-- C1 part: fidelity is symmetric in its arguments. -/
lemma fidelity_comm (hρ : ρ.PosSemidef) (hσ : σ.PosSemidef) :
    fidelity ρ σ = fidelity σ ρ := by
  unfold fidelity
  rw [fidelity_arg_eq hρ hσ, fidelity_arg_eq hσ hρ]
  have hC : matrix_sqrt σ * matrix_sqrt ρ = (matrix_sqrt ρ * matrix_sqrt σ)ᴴ := by
    rw [Matrix.conjTranspose_mul, matrix_sqrt_herm hρ, matrix_sqrt_herm hσ]
  rw [hC, Matrix.conjTranspose_conjTranspose, trace_matrix_sqrt_conj_comm]

/-- C1 part: `fidelity(ρ,ρ) = 1` for a density matrix. -/
lemma fidelity_self (hρ : ρ.PosSemidef) (hτ : ρ.trace = 1) : fidelity ρ ρ = 1 := by
  unfold fidelity
  have hAA := matrix_sqrt_mul_self hρ
  have harg : matrix_sqrt ρ * ρ * matrix_sqrt ρ = ρ * ρ := by
    set A := matrix_sqrt ρ with hA
    rw [← hAA]
    simp only [mul_assoc]
  rw [harg, matrix_sqrt_sq hρ, hτ]
  norm_num

end FidelityBasic

/- ### Fidelity on pure states (rank-1 projectors) -/

section PureStates

variable {d : ℕ}

/-- C1 part: on rank-1 projectors the fidelity reduces to the squared overlap
`|⟨ψ|φ⟩|²`. -/
lemma fidelity_pure_pure (ψ φ : Fin d → ℂ) (hψ : star ψ ⬝ᵥ ψ = 1) (hφ : star φ ⬝ᵥ φ = 1) :
    fidelity (vecMulVec ψ (star ψ)) (vecMulVec φ (star φ)) =
      Complex.abs (star ψ ⬝ᵥ φ) ^ 2 := by
  have hρψ := posSemidef_vecMulVec ψ
  have hρφ := posSemidef_vecMulVec φ
  -- the square root of a rank-1 trace-1 projector is itself
  have hsψ : matrix_sqrt (vecMulVec ψ (star ψ)) = vecMulVec ψ (star ψ) := by
    refine matrix_sqrt_unique hρψ hρψ ?_
    rw [vecMulVec_mul_vecMulVec, hψ, one_smul]
  set z : ℂ := star ψ ⬝ᵥ φ with hzdef
  have hz' : star φ ⬝ᵥ ψ = star z := by
    rw [hzdef]
    simp only [dotProduct, Pi.star_apply, star_sum, star_mul', star_star]
    apply Finset.sum_congr rfl
    intro k _
    ring
  have hzz : z * star z = ((Complex.abs z : ℂ)) ^ 2 := by
    rw [show (star z : ℂ) = (starRingEnd ℂ) z from rfl, Complex.mul_conj, ← Complex.sq_abs]
    push_cast
    ring
  -- the inner argument is |z|² times the projector onto ψ
  have harg : matrix_sqrt (vecMulVec ψ (star ψ)) * vecMulVec φ (star φ) *
      matrix_sqrt (vecMulVec ψ (star ψ)) =
      ((Complex.abs z : ℂ) ^ 2) • vecMulVec ψ (star ψ) := by
    rw [hsψ, vecMulVec_mul_vecMulVec, Matrix.smul_mul, vecMulVec_mul_vecMulVec, hz',
      smul_smul, hzz]
  -- the square root of that is |z| times the projector onto ψ
  have hXpsd : ((Complex.abs z : ℂ) • vecMulVec ψ (star ψ)).PosSemidef := by
    have : (Complex.abs z : ℂ) • vecMulVec ψ (star ψ) =
        vecMulVec ((Real.sqrt (Complex.abs z) : ℂ) • ψ)
          (star ((Real.sqrt (Complex.abs z) : ℂ) • ψ)) := by
      rw [star_smul, show vecMulVec ((Real.sqrt (Complex.abs z) : ℂ) • ψ)
          ((star (Real.sqrt (Complex.abs z) : ℂ)) • star ψ) =
          ((Real.sqrt (Complex.abs z) : ℂ) * star (Real.sqrt (Complex.abs z) : ℂ)) •
            vecMulVec ψ (star ψ) by
        ext i j
        simp only [vecMulVec_apply, Pi.smul_apply, smul_eq_mul, Matrix.smul_apply]
        ring]
      congr 1
      rw [Complex.star_def, Complex.conj_ofReal, ← Complex.ofReal_mul,
        Real.mul_self_sqrt (Complex.abs.nonneg z)]
    rw [this]
    exact posSemidef_vecMulVec _
  have hargpsd : (((Complex.abs z : ℂ) ^ 2) • vecMulVec ψ (star ψ) :
      Matrix (Fin d) (Fin d) ℂ).PosSemidef := by
    rw [← harg, hsψ]
    have h := hρφ.mul_mul_conjTranspose_same (vecMulVec ψ (star ψ))
    rwa [hρψ.1.eq] at h
  have hsqrt : matrix_sqrt (((Complex.abs z : ℂ) ^ 2) • vecMulVec ψ (star ψ)) =
      (Complex.abs z : ℂ) • vecMulVec ψ (star ψ) := by
    refine matrix_sqrt_unique hXpsd hargpsd ?_
    rw [Matrix.smul_mul, Matrix.mul_smul, smul_smul, vecMulVec_mul_vecMulVec, hψ, one_smul,
      ← pow_two]
  unfold fidelity
  rw [harg, hsqrt, trace_smul, trace_vecMulVec, hψ, smul_eq_mul, mul_one]
  simp

end PureStates

/- ### Fidelity bounds and the equality characterization -/

section FidelityBounds

variable {d : ℕ} {ρ σ : Matrix (Fin d) (Fin d) ℂ}

lemma trace_one_re (hρt : ρ.trace = 1) {X : Matrix (Fin d) (Fin d) ℂ}
    (hXX : X * X = ρ) : ((X * X).trace).re = 1 := by
  rw [hXX, hρt]
  rfl

/-- C1 part: fidelity of density matrices lies in `[0,1]`. -/
lemma fidelity_mem_Icc (hρ : IsDensityMatrix ρ) (hσ : IsDensityMatrix σ) :
    fidelity ρ σ ∈ Set.Icc (0 : ℝ) 1 := by
  obtain ⟨hρp, hρt⟩ := hρ
  obtain ⟨hσp, hσt⟩ := hσ
  constructor
  · exact sq_nonneg _
  · have hA := matrix_sqrt_posSemidef hρp
    have hB := matrix_sqrt_posSemidef hσp
    have hTrA : ((matrix_sqrt ρ * matrix_sqrt ρ).trace).re = 1 :=
      trace_one_re hρt (matrix_sqrt_mul_self hρp)
    have hTrB : ((matrix_sqrt σ * matrix_sqrt σ).trace).re = 1 :=
      trace_one_re hσt (matrix_sqrt_mul_self hσp)
    have hmaster := (trace_sqrt_mul_le_one_and_eq hA hB hTrA hTrB).1
    have hnn : 0 ≤ (matrix_sqrt ((matrix_sqrt ρ * matrix_sqrt σ) *
        (matrix_sqrt ρ * matrix_sqrt σ)ᴴ)).trace.re :=
      re_trace_matrix_sqrt_nonneg (posSemidef_self_mul_conjTranspose _)
    unfold fidelity
    rw [fidelity_arg_eq hρp hσp]
    nlinarith [hmaster, hnn]

/-- C1 part: fidelity equals 1 exactly on equal density matrices. -/
lemma fidelity_eq_one_iff (hρ : IsDensityMatrix ρ) (hσ : IsDensityMatrix σ) :
    fidelity ρ σ = 1 ↔ ρ = σ := by
  obtain ⟨hρp, hρt⟩ := hρ
  obtain ⟨hσp, hσt⟩ := hσ
  constructor
  · intro h1
    have hA := matrix_sqrt_posSemidef hρp
    have hB := matrix_sqrt_posSemidef hσp
    have hTrA : ((matrix_sqrt ρ * matrix_sqrt ρ).trace).re = 1 :=
      trace_one_re hρt (matrix_sqrt_mul_self hρp)
    have hTrB : ((matrix_sqrt σ * matrix_sqrt σ).trace).re = 1 :=
      trace_one_re hσt (matrix_sqrt_mul_self hσp)
    have hnn : 0 ≤ (matrix_sqrt ((matrix_sqrt ρ * matrix_sqrt σ) *
        (matrix_sqrt ρ * matrix_sqrt σ)ᴴ)).trace.re :=
      re_trace_matrix_sqrt_nonneg (posSemidef_self_mul_conjTranspose _)
    unfold fidelity at h1
    rw [fidelity_arg_eq hρp hσp] at h1
    have hx : (matrix_sqrt ((matrix_sqrt ρ * matrix_sqrt σ) *
        (matrix_sqrt ρ * matrix_sqrt σ)ᴴ)).trace.re = 1 := by
      have hs := Real.sqrt_sq hnn
      rw [h1, Real.sqrt_one] at hs
      exact hs.symm
    have hAB := (trace_sqrt_mul_le_one_and_eq hA hB hTrA hTrB).2 hx
    calc ρ = matrix_sqrt ρ * matrix_sqrt ρ := (matrix_sqrt_mul_self hρp).symm
      _ = matrix_sqrt σ * matrix_sqrt σ := by rw [hAB]
      _ = σ := matrix_sqrt_mul_self hσp
  · intro h
    subst h
    exact fidelity_self hρp hρt

end FidelityBounds

/- ### Trace distance -/

section TraceDistance

variable {d : ℕ} {ρ σ : Matrix (Fin d) (Fin d) ℂ}

lemma conj_diag_mul (V : Matrix (Fin d) (Fin d) ℂ) (hV2 : star V * V = 1)
    (f g : Fin d → ℂ) :
    (V * diagonal f * star V) * (V * diagonal g * star V) =
      V * diagonal (fun i => f i * g i) * star V := by
  have h : star V * (V * (diagonal g * star V)) = diagonal g * star V := by
    rw [← mul_assoc, hV2, one_mul]
  calc (V * diagonal f * star V) * (V * diagonal g * star V)
      = V * (diagonal f * (star V * (V * (diagonal g * star V)))) := by
        simp only [mul_assoc]
    _ = V * (diagonal f * (diagonal g * star V)) := by rw [h]
    _ = V * (diagonal f * diagonal g) * star V := by simp only [mul_assoc]
    _ = V * diagonal (fun i => f i * g i) * star V := by
        rw [diagonal_mul_diagonal]

lemma conj_diag_posSemidef (V : Matrix (Fin d) (Fin d) ℂ) (f : Fin d → ℝ)
    (hf : ∀ i, 0 ≤ f i) :
    (V * diagonal (fun i => ((f i : ℝ) : ℂ)) * star V).PosSemidef := by
  have hdiag : (diagonal (fun i => ((f i : ℝ) : ℂ))).PosSemidef := by
    apply Matrix.PosSemidef.diagonal
    intro i
    show (0 : ℂ) ≤ ((f i : ℝ) : ℂ)
    exact Complex.zero_le_real.mpr (hf i)
  have h := hdiag.mul_mul_conjTranspose_same V
  rw [Matrix.star_eq_conjTranspose]
  exact h

lemma re_trace_conj_diag (V : Matrix (Fin d) (Fin d) ℂ) (hV2 : star V * V = 1)
    (f : Fin d → ℝ) :
    ((V * diagonal (fun i => ((f i : ℝ) : ℂ)) * star V).trace).re = ∑ i, f i := by
  rw [trace_unitary_conj _ _ hV2, dm_trace_diagonal]
  simp

/-- The trace distance of density matrices: `½ ∑ |eigenvalues of ρ−σ|`, lying in
`[0,1]`. -/
lemma trace_distance_mem_Icc (hρ : IsDensityMatrix ρ) (hσ : IsDensityMatrix σ) :
    trace_distance ρ σ ∈ Set.Icc (0 : ℝ) 1 := by
  obtain ⟨hρp, hρt⟩ := hρ
  obtain ⟨hσp, hσt⟩ := hσ
  have hδ : (ρ - σ).IsHermitian := hρp.1.sub hσp.1
  set μ : Fin d → ℝ := hδ.eigenvalues with hμdef
  set V : Matrix (Fin d) (Fin d) ℂ := (hδ.eigenvectorUnitary : Matrix (Fin d) (Fin d) ℂ)
    with hVdef
  have hV1 : V * star V = 1 := Matrix.mem_unitaryGroup_iff.mp hδ.eigenvectorUnitary.2
  have hV2 : star V * V = 1 := Matrix.UnitaryGroup.star_mul_self hδ.eigenvectorUnitary
  have hspec : ρ - σ = V * diagonal (fun i => ((μ i : ℝ) : ℂ)) * star V :=
    hδ.spectral_theorem
  -- the argument of the square root
  have hargsq : (ρ - σ)ᴴ * (ρ - σ) = V * diagonal (fun i => ((μ i * μ i : ℝ) : ℂ)) * star V := by
    rw [hδ.eq]
    conv_lhs => rw [hspec]
    rw [conj_diag_mul V hV2,
      show (fun i => ((μ i : ℝ) : ℂ) * ((μ i : ℝ) : ℂ)) =
        (fun i => ((μ i * μ i : ℝ) : ℂ)) from by
      funext i
      push_cast
      ring]
  -- its square root is the conjugated |μ| diagonal
  have habs : matrix_sqrt ((ρ - σ)ᴴ * (ρ - σ)) =
      V * diagonal (fun i => ((|μ i| : ℝ) : ℂ)) * star V := by
    have hXpsd := conj_diag_posSemidef V (fun i => |μ i|) (fun i => abs_nonneg _)
    have hargpsd : ((ρ - σ)ᴴ * (ρ - σ)).PosSemidef :=
      posSemidef_conjTranspose_mul_self _
    refine matrix_sqrt_unique hXpsd hargpsd ?_
    rw [conj_diag_mul V hV2, hargsq,
      show (fun i => ((|μ i| : ℝ) : ℂ) * ((|μ i| : ℝ) : ℂ)) =
        (fun i => ((μ i * μ i : ℝ) : ℂ)) from by
      funext i
      rw [← Complex.ofReal_mul, abs_mul_abs_self]]
  -- trace value
  have htrval : trace_distance ρ σ = (1 / 2) * ∑ i, |μ i| := by
    unfold trace_distance
    rw [habs, re_trace_conj_diag V hV2]
  -- sum of eigenvalues is zero
  have hsumzero : ∑ i, μ i = 0 := by
    have h := re_trace_eq_sum_eigenvalues hδ
    rw [trace_sub, Complex.sub_re, hρt, hσt] at h
    rw [← h]
    norm_num
  -- positive part of the spectrum sums to at most 1
  set ind : Fin d → ℝ := fun i => if 0 < μ i then 1 else 0 with hinddef
  have hP_psd := conj_diag_posSemidef V ind (fun i => by
    show (0 : ℝ) ≤ if 0 < μ i then 1 else 0
    split <;> norm_num)
  have hQ_psd := conj_diag_posSemidef V (fun i => 1 - ind i) (fun i => by
    show (0 : ℝ) ≤ 1 - ind i
    show (0 : ℝ) ≤ 1 - if 0 < μ i then 1 else 0
    split <;> norm_num)
  set P : Matrix (Fin d) (Fin d) ℂ := V * diagonal (fun i => ((ind i : ℝ) : ℂ)) * star V
    with hPdef
  have htrP : ((ρ - σ) * P).trace.re = ∑ i, μ i * ind i := by
    conv_lhs => rw [hspec, hPdef]
    rw [conj_diag_mul V hV2]
    rw [show (fun i => ((μ i : ℝ) : ℂ) * ((ind i : ℝ) : ℂ)) =
        (fun i => ((μ i * ind i : ℝ) : ℂ)) from by
      funext i
      push_cast
      ring]
    exact re_trace_conj_diag V hV2 _
  have h1P : (1 : Matrix (Fin d) (Fin d) ℂ) - P =
      V * diagonal (fun i => ((1 - ind i : ℝ) : ℂ)) * star V := by
    have hone : (1 : Matrix (Fin d) (Fin d) ℂ) =
        V * diagonal (fun i => ((1 : ℝ) : ℂ)) * star V := by
      rw [show (diagonal (fun i : Fin d => ((1 : ℝ) : ℂ))) = 1 from by
        rw [show (fun i : Fin d => ((1 : ℝ) : ℂ)) = fun i : Fin d => (1 : ℂ) from by
          funext i
          norm_num]
        exact diagonal_one]
      rw [mul_one, hV1]
    rw [hPdef]
    conv_lhs => rw [hone]
    rw [← Matrix.sub_mul, ← Matrix.mul_sub]
    congr 1
    congr 1
    ext k l
    rw [Matrix.sub_apply, diagonal_apply, diagonal_apply, diagonal_apply]
    by_cases hkl : k = l
    · rw [if_pos hkl, if_pos hkl, if_pos hkl]
      push_cast
      ring
    · rw [if_neg hkl, if_neg hkl, if_neg hkl]
      ring
  have hρP_le : ((ρ * P).trace).re ≤ 1 := by
    have hslack : 0 ≤ ((ρ * (1 - P)).trace).re := by
      apply re_trace_mul_nonneg hρp
      rw [h1P]
      exact hQ_psd
    have hexpand : (ρ * (1 - P)).trace = ρ.trace - (ρ * P).trace := by
      rw [Matrix.mul_sub, mul_one, trace_sub]
    rw [hexpand, Complex.sub_re, hρt] at hslack
    have : ((1 : ℂ)).re = 1 := Complex.one_re
    linarith [hslack, this]
  have hσP_ge : 0 ≤ ((σ * P).trace).re := by
    apply re_trace_mul_nonneg hσp
    rw [hPdef]
    exact hP_psd
  have hpos_le : ∑ i, μ i * ind i ≤ 1 := by
    have hsplit : ((ρ - σ) * P).trace = (ρ * P).trace - (σ * P).trace := by
      rw [Matrix.sub_mul, trace_sub]
    rw [hsplit, Complex.sub_re] at htrP
    linarith [hρP_le, hσP_ge, htrP.symm.le, htrP.le]
  -- |μ| = 2·μ⁺ − μ pointwise
  have habs_id : ∀ i, |μ i| = 2 * (μ i * ind i) - μ i := by
    intro i
    show |μ i| = 2 * (μ i * (if 0 < μ i then 1 else 0)) - μ i
    rcases lt_trichotomy 0 (μ i) with h | h | h
    · rw [if_pos h, abs_of_pos h]
      ring
    · rw [if_neg (by rw [← h]; exact lt_irrefl 0), ← h]
      norm_num
    · rw [if_neg (by exact not_lt.mpr h.le), abs_of_neg h]
      ring
  have hsumabs : ∑ i, |μ i| ≤ 2 := by
    rw [Finset.sum_congr rfl fun i _ => habs_id i, Finset.sum_sub_distrib, ← Finset.mul_sum,
      hsumzero, sub_zero]
    linarith [hpos_le]
  rw [htrval]
  constructor
  · have : 0 ≤ ∑ i, |μ i| := Finset.sum_nonneg fun i _ => abs_nonneg _
    linarith
  · linarith

/-- Trace distance is symmetric (for arbitrary matrices). -/
lemma trace_distance_comm (ρ σ : Matrix (Fin d) (Fin d) ℂ) :
    trace_distance ρ σ = trace_distance σ ρ := by
  unfold trace_distance
  rw [show (σ - ρ) = -(ρ - σ) from (neg_sub ρ σ).symm, Matrix.conjTranspose_neg, neg_mul_neg]

/-- Trace distance of a state to itself is zero. -/
lemma trace_distance_self (ρ : Matrix (Fin d) (Fin d) ℂ) : trace_distance ρ ρ = 0 := by
  unfold trace_distance
  have h0 : matrix_sqrt ((ρ - ρ)ᴴ * (ρ - ρ)) = 0 := by
    refine matrix_sqrt_unique Matrix.PosSemidef.zero
      (posSemidef_conjTranspose_mul_self _) ?_
    rw [sub_self]
    simp
  rw [h0]
  simp

end TraceDistance

/- ### Purity: spectral analysis -/

section PuritySpectral

variable {d : ℕ} {ρ : Matrix (Fin d) (Fin d) ℂ}

lemma purity_eq_sum_sq (hρp : ρ.PosSemidef) :
    purity ρ false = ∑ i, (hρp.1.eigenvalues i) ^ 2 := by
  have hV2 : star (hρp.1.eigenvectorUnitary : Matrix (Fin d) (Fin d) ℂ) *
      (hρp.1.eigenvectorUnitary : Matrix (Fin d) (Fin d) ℂ) = 1 :=
    Matrix.UnitaryGroup.star_mul_self hρp.1.eigenvectorUnitary
  have hsq : ρ * ρ = (hρp.1.eigenvectorUnitary : Matrix (Fin d) (Fin d) ℂ) *
      diagonal (fun i => ((hρp.1.eigenvalues i ^ 2 : ℝ) : ℂ)) *
      star (hρp.1.eigenvectorUnitary : Matrix (Fin d) (Fin d) ℂ) := by
    conv_lhs => rw [hρp.1.spectral_theorem]
    rw [conj_diag_mul _ hV2]
    rw [show (fun i => (RCLike.ofReal ∘ hρp.1.eigenvalues) i *
        (RCLike.ofReal ∘ hρp.1.eigenvalues) i) =
        (fun i => ((hρp.1.eigenvalues i ^ 2 : ℝ) : ℂ)) from by
      funext i
      show ((hρp.1.eigenvalues i : ℝ) : ℂ) * ((hρp.1.eigenvalues i : ℝ) : ℂ) = _
      push_cast
      ring]
  show ((ρ * ρ).trace).re = _
  rw [hsq, re_trace_conj_diag _ hV2]

lemma eigenvalues_sum_one (hρ : IsDensityMatrix ρ) :
    ∑ i, hρ.1.1.eigenvalues i = 1 := by
  have h := re_trace_eq_sum_eigenvalues hρ.1.1
  have h2 : (ρ.trace).re = ((1 : ℂ)).re := congrArg Complex.re hρ.2
  have h1 : ((1 : ℂ)).re = 1 := rfl
  linarith [h, h2]

lemma eigenvalue_le_one (hρ : IsDensityMatrix ρ) (i : Fin d) :
    hρ.1.1.eigenvalues i ≤ 1 := by
  have hsum := eigenvalues_sum_one hρ
  have hle : hρ.1.1.eigenvalues i ≤ ∑ j, hρ.1.1.eigenvalues j :=
    Finset.single_le_sum (fun j _ => hρ.1.eigenvalues_nonneg j) (Finset.mem_univ i)
  linarith

/-- Purity of a density matrix lies in `[1/d, 1]`. -/
lemma purity_mem_Icc (hρ : IsDensityMatrix ρ) :
    purity ρ false ∈ Set.Icc (1 / (d : ℝ)) 1 := by
  have hd : 0 < d := by
    by_contra hd0
    push_neg at hd0
    interval_cases d
    have h := hρ.2
    rw [show ρ.trace = 0 from by rw [Matrix.trace]; exact Finset.sum_empty] at h
    exact absurd h (by norm_num)
  have hsum := eigenvalues_sum_one hρ
  have hnn : ∀ i, 0 ≤ hρ.1.1.eigenvalues i := fun i => hρ.1.eigenvalues_nonneg i
  rw [purity_eq_sum_sq hρ.1]
  constructor
  · -- Cauchy–Schwarz: 1 = (∑ λ)² ≤ d · ∑ λ²
    have hcs := Finset.sum_mul_sq_le_sq_mul_sq Finset.univ hρ.1.1.eigenvalues (fun _ => 1)
    simp only [mul_one, one_pow] at hcs
    rw [hsum] at hcs
    have hcard : ∑ _i : Fin d, (1 : ℝ) = (d : ℝ) := by
      rw [Finset.sum_const, Finset.card_univ, Fintype.card_fin]
      simp
    rw [hcard] at hcs
    rw [div_le_iff (show (0 : ℝ) < (d : ℝ) by exact_mod_cast hd)]
    norm_num at hcs
    exact hcs
  · -- ∑ λ² ≤ ∑ λ = 1 since each λ ∈ [0,1]
    have hle : ∑ i, hρ.1.1.eigenvalues i ^ 2 ≤ ∑ i, hρ.1.1.eigenvalues i := by
      apply Finset.sum_le_sum
      intro i _
      have h1 := eigenvalue_le_one hρ i
      nlinarith [hnn i]
    linarith [hsum]

/-- Purity 1 characterizes rank-1 (pure) density matrices. -/
lemma purity_eq_one_iff_rank_one (hρ : IsDensityMatrix ρ) :
    purity ρ false = 1 ↔ ρ.rank = 1 := by
  classical
  have hsum := eigenvalues_sum_one hρ
  have hnn : ∀ i, 0 ≤ hρ.1.1.eigenvalues i := fun i => hρ.1.eigenvalues_nonneg i
  have hrank : ρ.rank = (Finset.univ.filter fun i => hρ.1.1.eigenvalues i ≠ 0).card := by
    rw [hρ.1.1.rank_eq_card_non_zero_eigs, Fintype.card_subtype]
  rw [purity_eq_sum_sq hρ.1, hrank]
  constructor
  · intro h1
    -- pointwise λ² = λ, so λ ∈ {0,1}
    have hpt : ∀ i, hρ.1.1.eigenvalues i ^ 2 = hρ.1.1.eigenvalues i := by
      have hzero : ∑ i, (hρ.1.1.eigenvalues i - hρ.1.1.eigenvalues i ^ 2) = 0 := by
        rw [Finset.sum_sub_distrib, hsum, h1, sub_self]
      intro i
      have hterm := (Finset.sum_eq_zero_iff_of_nonneg (fun j _ => by
        have h1j := eigenvalue_le_one hρ j
        nlinarith [hnn j])).mp hzero i (Finset.mem_univ i)
      linarith
    have hval : ∀ i, hρ.1.1.eigenvalues i ≠ 0 → hρ.1.1.eigenvalues i = 1 := by
      intro i hne
      have := hpt i
      have h2 : hρ.1.1.eigenvalues i * (hρ.1.1.eigenvalues i - 1) = 0 := by nlinarith
      rcases mul_eq_zero.mp h2 with h | h
      · exact absurd h hne
      · linarith
    -- the filtered sum is the cardinality, and equals 1
    have hfilter : ∑ i ∈ Finset.univ.filter (fun i => hρ.1.1.eigenvalues i ≠ 0),
        hρ.1.1.eigenvalues i = 1 := by
      rw [Finset.sum_filter_ne_zero, hsum]
    have hcardsum : ∑ i ∈ Finset.univ.filter (fun i => hρ.1.1.eigenvalues i ≠ 0),
        hρ.1.1.eigenvalues i =
        ((Finset.univ.filter fun i => hρ.1.1.eigenvalues i ≠ 0).card : ℝ) := by
      rw [Finset.sum_congr rfl fun i hi => hval i (Finset.mem_filter.mp hi).2,
        Finset.sum_const, nsmul_eq_mul, mul_one]
    rw [hcardsum] at hfilter
    exact_mod_cast hfilter
  · intro hcard
    obtain ⟨j, hj⟩ := Finset.card_eq_one.mp hcard
    have hjmem : j ∈ Finset.univ.filter (fun i => hρ.1.1.eigenvalues i ≠ 0) := by
      rw [hj]
      exact Finset.mem_singleton_self j
    have hjne : hρ.1.1.eigenvalues j ≠ 0 := (Finset.mem_filter.mp hjmem).2
    have hother : ∀ i, i ≠ j → hρ.1.1.eigenvalues i = 0 := by
      intro i hij
      by_contra hne
      have : i ∈ Finset.univ.filter (fun i => hρ.1.1.eigenvalues i ≠ 0) :=
        Finset.mem_filter.mpr ⟨Finset.mem_univ i, hne⟩
      rw [hj, Finset.mem_singleton] at this
      exact hij this
    have hlj : hρ.1.1.eigenvalues j = 1 := by
      have := hsum
      rw [← Finset.add_sum_erase _ _ (Finset.mem_univ j)] at this
      have hz : ∑ i ∈ Finset.univ.erase j, hρ.1.1.eigenvalues i = 0 := by
        apply Finset.sum_eq_zero
        intro i hi
        exact hother i (Finset.mem_erase.mp hi).1
      rw [hz, add_zero] at this
      exact this
    rw [← Finset.add_sum_erase _ _ (Finset.mem_univ j), hlj]
    have hz : ∑ i ∈ Finset.univ.erase j, hρ.1.1.eigenvalues i ^ 2 = 0 := by
      apply Finset.sum_eq_zero
      intro i hi
      rw [hother i (Finset.mem_erase.mp hi).1]
      norm_num
    rw [hz]
    norm_num

end PuritySpectral

/- ### Quantum Chernoff bound -/

section Chernoff

variable {d : ℕ} {ρ : Matrix (Fin d) (Fin d) ℂ}

lemma fractional_matrix_power_of_herm (h : ρ.IsHermitian) (s : ℝ) :
    fractional_matrix_power ρ s =
      (h.eigenvectorUnitary : Matrix (Fin d) (Fin d) ℂ) *
        diagonal (fun i => ((h.eigenvalues i ^ s : ℝ) : ℂ)) *
        star (h.eigenvectorUnitary : Matrix (Fin d) (Fin d) ℂ) :=
  dif_pos h

/-- For a density matrix, `Tr[ρ^s ρ^(1−s)] = Tr ρ = 1` at every exponent. -/
lemma qcb_objective_self (hρ : IsDensityMatrix ρ) (s : ℝ) : qcb_objective ρ ρ s = 1 := by
  have hh := hρ.1.1
  have hV2 : star (hh.eigenvectorUnitary : Matrix (Fin d) (Fin d) ℂ) *
      (hh.eigenvectorUnitary : Matrix (Fin d) (Fin d) ℂ) = 1 :=
    Matrix.UnitaryGroup.star_mul_self hh.eigenvectorUnitary
  unfold qcb_objective
  rw [fractional_matrix_power_of_herm hh s, fractional_matrix_power_of_herm hh (1 - s),
    conj_diag_mul _ hV2]
  have hfun : (fun i => ((hh.eigenvalues i ^ s : ℝ) : ℂ) *
      ((hh.eigenvalues i ^ (1 - s) : ℝ) : ℂ)) =
      (fun i => ((hh.eigenvalues i : ℝ) : ℂ)) := by
    funext i
    rw [← Complex.ofReal_mul]
    congr 1
    have hnn := hρ.1.eigenvalues_nonneg i
    rcases eq_or_lt_of_le hnn with h0 | hpos
    · rw [← h0]
      by_cases hs : s = 0
      · rw [hs, Real.rpow_zero, one_mul, sub_zero, Real.rpow_one]
      · rw [Real.zero_rpow hs, zero_mul]
    · rw [← Real.rpow_add hpos]
      norm_num
  rw [hfun,
    show (fun i => ((hh.eigenvalues i : ℝ) : ℂ)) = RCLike.ofReal ∘ hh.eigenvalues from rfl,
    ← hh.spectral_theorem, hρ.2]
  rfl

lemma quantum_chernoff_bound_self (hρ : IsDensityMatrix ρ) :
    quantum_chernoff_bound ρ ρ = 1 := by
  unfold quantum_chernoff_bound
  have himg : qcb_objective ρ ρ '' Set.Icc (0 : ℝ) 1 = {1} := by
    rw [show qcb_objective ρ ρ = fun _ => (1 : ℝ) from funext fun s => qcb_objective_self hρ s]
    exact Set.Nonempty.image_const (Set.nonempty_Icc.mpr (by norm_num)) 1
  rw [himg, csInf_singleton]

lemma qcb_isLeast_self (hρ : IsDensityMatrix ρ) :
    IsLeast (qcb_objective ρ ρ '' Set.Icc (0 : ℝ) 1) 1 := by
  constructor
  · exact ⟨0, Set.mem_Icc.mpr (by norm_num), qcb_objective_self hρ 0⟩
  · rintro y ⟨sy, _, rfl⟩
    rw [qcb_objective_self hρ sy]

end Chernoff

/- ### Process fidelity -/

section ProcessFid

/-- For an orthogonal Pauli-Liouville matrix (`Rᵀ·R = 1`, the case of a unitary
channel), `process_fidelity(R,R) = 1`. -/
lemma process_fidelity_self_orthogonal {k : ℕ} (R : Matrix (Fin (k ^ 2)) (Fin (k ^ 2)) ℝ)
    (hR : Rᵀ * R = 1) : process_fidelity R R = 1 := by
  unfold process_fidelity
  rw [hR, trace_one, Nat.sqrt_eq', Fintype.card_fin]
  rcases Nat.eq_zero_or_pos k with hk | hk
  · subst hk
    norm_num
  · have hkR : (0 : ℝ) < (k : ℝ) := by exact_mod_cast hk
    push_cast
    field_simp
    ring

lemma rot_x_pl_trace (θ : ℝ) : (rot_x_pl θ).trace = 2 + 2 * Real.cos θ := by
  unfold rot_x_pl
  rw [Matrix.trace, Fin.sum_univ_four]
  simp only [Matrix.diag, Matrix.of_apply, Matrix.cons_val_zero, Matrix.cons_val_one,
    Matrix.head_cons, Matrix.cons_val_two, Matrix.tail_cons, Matrix.cons_val_three,
    Matrix.head_fin_const]
  ring

lemma process_fidelity_rot_x (θ : ℝ) :
    process_fidelity (1 : Matrix (Fin 4) (Fin 4) ℝ) (rot_x_pl θ) =
      (2 + Real.cos θ) / 3 := by
  unfold process_fidelity
  rw [Matrix.transpose_one, one_mul, rot_x_pl_trace,
    show Nat.sqrt 4 = 2 from by
      rw [show (4 : ℕ) = 2 ^ 2 from by norm_num]
      exact Nat.sqrt_eq' 2]
  norm_num
  ring

/-- The recorded notebook scenario: process fidelity between the identity gate
and the rotation about X by `θ = 0.4` is `≈ 0.9737`. -/
lemma process_fidelity_rot_x_04_approx :
    |process_fidelity (1 : Matrix (Fin 4) (Fin 4) ℝ) (rot_x_pl 0.4) - 0.9737| < 0.001 := by
  rw [process_fidelity_rot_x]
  have habs : |(0.4 : ℝ)| = 0.4 := abs_of_pos (by norm_num)
  have hb := @Real.cos_bound (0.4 : ℝ) (by rw [habs]; norm_num)
  rw [habs] at hb
  have hb2 := abs_le.mp hb
  rw [abs_lt]
  constructor <;> nlinarith [hb2.1, hb2.2]

lemma depolarizing_pl_tp : IsTracePreservingPL depolarizing_pl := by
  intro j
  unfold depolarizing_pl
  fin_cases j <;>
    simp [diagonal_apply]

lemma process_fidelity_depolarizing :
    process_fidelity depolarizing_pl depolarizing_pl = 1 / 2 := by
  unfold process_fidelity depolarizing_pl
  rw [Matrix.diagonal_transpose, diagonal_mul_diagonal,
    show Nat.sqrt 4 = 2 from by
      rw [show (4 : ℕ) = 2 ^ 2 from by norm_num]
      exact Nat.sqrt_eq' 2]
  rw [Matrix.trace, Fin.sum_univ_four]
  simp only [Matrix.diag_diagonal, Pi.mul_apply, Matrix.cons_val_zero, Matrix.cons_val_one,
    Matrix.head_cons, Matrix.cons_val_two, Matrix.tail_cons, Matrix.cons_val_three,
    Matrix.head_fin_const]
  norm_num

end ProcessFid

/- ### Claim C3 and Claim C10: purity/impurity algebra -/

/-- C3: for every density matrix ρ and either value of the `dim_renorm` flag,
`impurity(ρ, r) = 1 − purity(ρ, r)`, so `purity(ρ, r) + impurity(ρ, r)` equals
exactly 1 — an exact algebraic identity (proved here for all inputs, in
particular all valid density matrices). -/
theorem purity_add_impurity_eq_one {d : ℕ} (ρ : Matrix (Fin d) (Fin d) ℂ) (r : Bool) :
    impurity ρ r = 1 - purity ρ r ∧ purity ρ r + impurity ρ r = 1 := by
  unfold impurity
  constructor
  · rfl
  · ring

/-- C10: for dimension `d ≥ 2`, the renormalized impurity equals the
unrenormalized impurity scaled by `d/(d−1)`; in particular, for the recorded
one-qubit run the two outputs are in exact ratio 2:
`0.10774086601372801 = 2 × 0.053870433006864005`. -/
theorem impurity_renorm_scale {d : ℕ} (ρ : Matrix (Fin d) (Fin d) ℂ) (hd : 1 < d) :
    impurity ρ true = ((d : ℝ) / ((d : ℝ) - 1)) * impurity ρ false ∧
      (0.10774086601372801 : ℝ) = 2 * 0.053870433006864005 := by
  have hd1 : (1 : ℝ) < (d : ℝ) := by exact_mod_cast hd
  have hne : (d : ℝ) - 1 ≠ 0 := by linarith
  have hdne : (d : ℝ) ≠ 0 := by positivity
  constructor
  · unfold impurity purity
    simp only [if_true, if_false]
    field_simp
    ring
  · norm_num

/-- Witness for C10 at `d = 2`, `ρ = 0`. -/
theorem impurity_renorm_scale_witness :
    impurity (0 : Matrix (Fin 2) (Fin 2) ℂ) true =
        ((2 : ℕ) : ℝ) / (((2 : ℕ) : ℝ) - 1) * impurity (0 : Matrix (Fin 2) (Fin 2) ℂ) false ∧
      (0.10774086601372801 : ℝ) = 2 * 0.053870433006864005 :=
  impurity_renorm_scale (0 : Matrix (Fin 2) (Fin 2) ℂ) (by decide)

/- ### Concrete states for witnesses and counterexamples -/

section ConcreteStates

lemma isDensityMatrix_one_dim_one : IsDensityMatrix (1 : Matrix (Fin 1) (Fin 1) ℂ) := by
  constructor
  · exact Matrix.PosSemidef.one
  · rw [trace_one]
    norm_num

lemma isDensityMatrix_maximally_mixed :
    IsDensityMatrix ((1 / 2 : ℂ) • 1 : Matrix (Fin 2) (Fin 2) ℂ) := by
  constructor
  · have hdiag : ((1 / 2 : ℂ) • 1 : Matrix (Fin 2) (Fin 2) ℂ) =
        diagonal (fun _ => (1 / 2 : ℂ)) := by
      ext i j
      by_cases h : i = j
      · subst h
        simp [diagonal_apply, Matrix.one_apply]
      · simp [diagonal_apply, h, Matrix.one_apply_ne h]
    rw [hdiag]
    apply Matrix.PosSemidef.diagonal
    intro i
    show (0 : ℂ) ≤ 1 / 2
    rw [show ((1 : ℂ) / 2) = (((1 : ℝ) / 2 : ℝ) : ℂ) from by push_cast; ring]
    exact Complex.zero_le_real.mpr (by norm_num)
  · rw [trace_smul, trace_one]
    simp

lemma purity_maximally_mixed :
    purity ((1 / 2 : ℂ) • 1 : Matrix (Fin 2) (Fin 2) ℂ) false = 1 / 2 := by
  show ((((1 / 2 : ℂ) • 1 : Matrix (Fin 2) (Fin 2) ℂ) *
      ((1 / 2 : ℂ) • 1 : Matrix (Fin 2) (Fin 2) ℂ)).trace).re = 1 / 2
  rw [Matrix.smul_mul, Matrix.mul_smul, smul_smul, mul_one, trace_smul, trace_one]
  simp

lemma unit_vector_dim_one :
    star (fun _ : Fin 1 => (1 : ℂ)) ⬝ᵥ (fun _ : Fin 1 => (1 : ℂ)) = 1 := by
  simp [dotProduct]

end ConcreteStates

/- ### Claim C1: fidelity -/

/-- C1: for density matrices ρ, σ of equal dimension, `fidelity(ρ,σ)` returns
the real scalar `(Tr[√(√ρ·σ·√ρ)])²`, which lies in `[0,1]`, equals 1 if and
only if `ρ = σ`, is symmetric in its arguments, and reduces to `|⟨ψ|φ⟩|²`
when both inputs are rank-1 projectors (onto unit vectors ψ, φ). -/
theorem fidelity_contract {d : ℕ} (ρ σ : Matrix (Fin d) (Fin d) ℂ) (ψ φ : Fin d → ℂ)
    (hρ : IsDensityMatrix ρ) (hσ : IsDensityMatrix σ)
    (hψ : star ψ ⬝ᵥ ψ = 1) (hφ : star φ ⬝ᵥ φ = 1) :
    fidelity ρ σ = ((matrix_sqrt (matrix_sqrt ρ * σ * matrix_sqrt ρ)).trace).re ^ 2 ∧
      fidelity ρ σ ∈ Set.Icc (0 : ℝ) 1 ∧
      (fidelity ρ σ = 1 ↔ ρ = σ) ∧
      fidelity ρ σ = fidelity σ ρ ∧
      fidelity (vecMulVec ψ (star ψ)) (vecMulVec φ (star φ)) =
        Complex.abs (star ψ ⬝ᵥ φ) ^ 2 := by
  refine ⟨rfl, fidelity_mem_Icc hρ hσ, fidelity_eq_one_iff hρ hσ,
    fidelity_comm hρ.1 hσ.1, fidelity_pure_pure ψ φ hψ hφ⟩

/-- Witness for C1 at `d = 1`, `ρ = σ = (1)`, `ψ = φ = (1)`. -/
theorem fidelity_contract_witness :
    IsDensityMatrix (1 : Matrix (Fin 1) (Fin 1) ℂ) ∧
      star (fun _ : Fin 1 => (1 : ℂ)) ⬝ᵥ (fun _ : Fin 1 => (1 : ℂ)) = 1 ∧
      (fidelity (1 : Matrix (Fin 1) (Fin 1) ℂ) 1 =
          ((matrix_sqrt (matrix_sqrt (1 : Matrix (Fin 1) (Fin 1) ℂ) * 1 *
            matrix_sqrt (1 : Matrix (Fin 1) (Fin 1) ℂ))).trace).re ^ 2 ∧
        fidelity (1 : Matrix (Fin 1) (Fin 1) ℂ) 1 ∈ Set.Icc (0 : ℝ) 1 ∧
        (fidelity (1 : Matrix (Fin 1) (Fin 1) ℂ) 1 = 1 ↔
          (1 : Matrix (Fin 1) (Fin 1) ℂ) = 1) ∧
        fidelity (1 : Matrix (Fin 1) (Fin 1) ℂ) 1 =
          fidelity (1 : Matrix (Fin 1) (Fin 1) ℂ) 1 ∧
        fidelity (vecMulVec (fun _ : Fin 1 => (1 : ℂ)) (star (fun _ : Fin 1 => (1 : ℂ))))
            (vecMulVec (fun _ : Fin 1 => (1 : ℂ)) (star (fun _ : Fin 1 => (1 : ℂ)))) =
          Complex.abs (star (fun _ : Fin 1 => (1 : ℂ)) ⬝ᵥ (fun _ : Fin 1 => (1 : ℂ))) ^ 2) :=
  ⟨isDensityMatrix_one_dim_one, unit_vector_dim_one,
    fidelity_contract 1 1 _ _ isDensityMatrix_one_dim_one isDensityMatrix_one_dim_one
      unit_vector_dim_one unit_vector_dim_one⟩

/- ### Claim C6: trace distance -/

/-- C6: for density matrices ρ, σ of equal dimension, `trace_distance(ρ,σ)`
returns `½·Tr[√((ρ−σ)†(ρ−σ))]`; its output lies in `[0,1]`, it is symmetric in
its arguments, and `trace_distance(ρ,ρ) = 0`. -/
theorem trace_distance_contract {d : ℕ} (ρ σ : Matrix (Fin d) (Fin d) ℂ)
    (hρ : IsDensityMatrix ρ) (hσ : IsDensityMatrix σ) :
    trace_distance ρ σ =
        (1 / 2) * ((matrix_sqrt ((ρ - σ)ᴴ * (ρ - σ))).trace).re ∧
      trace_distance ρ σ ∈ Set.Icc (0 : ℝ) 1 ∧
      trace_distance ρ σ = trace_distance σ ρ ∧
      trace_distance ρ ρ = 0 :=
  ⟨rfl, trace_distance_mem_Icc hρ hσ, trace_distance_comm ρ σ, trace_distance_self ρ⟩

/-- Witness for C6 at `d = 1`, `ρ = σ = (1)`. -/
theorem trace_distance_contract_witness :
    IsDensityMatrix (1 : Matrix (Fin 1) (Fin 1) ℂ) ∧
      (trace_distance (1 : Matrix (Fin 1) (Fin 1) ℂ) 1 =
          (1 / 2) * ((matrix_sqrt (((1 : Matrix (Fin 1) (Fin 1) ℂ) - 1)ᴴ *
            ((1 : Matrix (Fin 1) (Fin 1) ℂ) - 1))).trace).re ∧
        trace_distance (1 : Matrix (Fin 1) (Fin 1) ℂ) 1 ∈ Set.Icc (0 : ℝ) 1 ∧
        trace_distance (1 : Matrix (Fin 1) (Fin 1) ℂ) 1 =
          trace_distance (1 : Matrix (Fin 1) (Fin 1) ℂ) 1 ∧
        trace_distance (1 : Matrix (Fin 1) (Fin 1) ℂ) 1 = 0) :=
  ⟨isDensityMatrix_one_dim_one,
    trace_distance_contract 1 1 isDensityMatrix_one_dim_one isDensityMatrix_one_dim_one⟩

/- ### Claim C7: quantum Chernoff bound -/

/-- C7: `quantum_chernoff_bound(ρ,σ)` returns the minimum over `s ∈ [0,1]` of
`Tr[ρ^s σ^(1−s)]`; in particular on `(ρ,ρ)` the objective is identically 1 on
`[0,1]` (so the minimizing `s_opt` can be any value in `[0,1]`), the minimum 1
is attained, and the returned value is 1. -/
theorem quantum_chernoff_bound_contract {d : ℕ} (ρ σ : Matrix (Fin d) (Fin d) ℂ)
    (hρ : IsDensityMatrix ρ) (hσ : IsDensityMatrix σ) :
    quantum_chernoff_bound ρ σ = sInf (qcb_objective ρ σ '' Set.Icc (0 : ℝ) 1) ∧
      (∀ s ∈ Set.Icc (0 : ℝ) 1, qcb_objective ρ ρ s = 1) ∧
      IsLeast (qcb_objective ρ ρ '' Set.Icc (0 : ℝ) 1) 1 ∧
      quantum_chernoff_bound ρ ρ = 1 :=
  ⟨rfl, fun s _ => qcb_objective_self hρ s, qcb_isLeast_self hρ,
    quantum_chernoff_bound_self hρ⟩

/-- Witness for C7 at `d = 1`, `ρ = σ = (1)`. -/
theorem quantum_chernoff_bound_contract_witness :
    IsDensityMatrix (1 : Matrix (Fin 1) (Fin 1) ℂ) ∧
      (quantum_chernoff_bound (1 : Matrix (Fin 1) (Fin 1) ℂ) 1 =
          sInf (qcb_objective (1 : Matrix (Fin 1) (Fin 1) ℂ) 1 '' Set.Icc (0 : ℝ) 1) ∧
        (∀ s ∈ Set.Icc (0 : ℝ) 1,
          qcb_objective (1 : Matrix (Fin 1) (Fin 1) ℂ) 1 s = 1) ∧
        IsLeast (qcb_objective (1 : Matrix (Fin 1) (Fin 1) ℂ) 1 '' Set.Icc (0 : ℝ) 1) 1 ∧
        quantum_chernoff_bound (1 : Matrix (Fin 1) (Fin 1) ℂ) 1 = 1) :=
  ⟨isDensityMatrix_one_dim_one,
    quantum_chernoff_bound_contract 1 1 isDensityMatrix_one_dim_one
      isDensityMatrix_one_dim_one⟩

/- ### Claim C8: Bures distance and angle -/

/-- C8: `bures_distance(ρ,σ) = √(2(1−√F(ρ,σ)))` and
`bures_angle(ρ,σ) = arccos(√F(ρ,σ))`, both computed from the same fidelity
value; consequently `bures_distance(ρ,σ) = 0` iff `fidelity(ρ,σ) = 1`. -/
theorem bures_contract {d : ℕ} (ρ σ : Matrix (Fin d) (Fin d) ℂ)
    (hρ : IsDensityMatrix ρ) (hσ : IsDensityMatrix σ) :
    bures_distance ρ σ = Real.sqrt (2 * (1 - Real.sqrt (fidelity ρ σ))) ∧
      bures_angle ρ σ = Real.arccos (Real.sqrt (fidelity ρ σ)) ∧
      (bures_distance ρ σ = 0 ↔ fidelity ρ σ = 1) := by
  refine ⟨rfl, rfl, ?_⟩
  have hF1 : fidelity ρ σ ≤ 1 := (fidelity_mem_Icc hρ hσ).2
  unfold bures_distance
  rw [Real.sqrt_eq_zero']
  constructor
  · intro h
    have h1 : (1 : ℝ) ≤ Real.sqrt (fidelity ρ σ) := by linarith
    have h2 : (1 : ℝ) ≤ fidelity ρ σ := Real.one_le_sqrt.mp h1
    linarith
  · intro h
    rw [h, Real.sqrt_one]
    norm_num

/-- Witness for C8 at `d = 1`, `ρ = σ = (1)`. -/
theorem bures_contract_witness :
    IsDensityMatrix (1 : Matrix (Fin 1) (Fin 1) ℂ) ∧
      (bures_distance (1 : Matrix (Fin 1) (Fin 1) ℂ) 1 =
          Real.sqrt (2 * (1 - Real.sqrt (fidelity (1 : Matrix (Fin 1) (Fin 1) ℂ) 1))) ∧
        bures_angle (1 : Matrix (Fin 1) (Fin 1) ℂ) 1 =
          Real.arccos (Real.sqrt (fidelity (1 : Matrix (Fin 1) (Fin 1) ℂ) 1)) ∧
        (bures_distance (1 : Matrix (Fin 1) (Fin 1) ℂ) 1 = 0 ↔
          fidelity (1 : Matrix (Fin 1) (Fin 1) ℂ) 1 = 1)) :=
  ⟨isDensityMatrix_one_dim_one,
    bures_contract 1 1 isDensityMatrix_one_dim_one isDensityMatrix_one_dim_one⟩

/- ### Claim C4: purity range (corrected) -/

/-- C4 counterexample: the claim's half-open interval `(1/d, 1]` is wrong: the
maximally mixed one-qubit state is a valid density matrix with
`purity = 1/2 = 1/d` exactly, which is not in `(1/2, 1]`. -/
theorem purity_open_interval_counterexample :
    IsDensityMatrix ((1 / 2 : ℂ) • 1 : Matrix (Fin 2) (Fin 2) ℂ) ∧
      purity ((1 / 2 : ℂ) • 1 : Matrix (Fin 2) (Fin 2) ℂ) false = 1 / 2 ∧
      purity ((1 / 2 : ℂ) • 1 : Matrix (Fin 2) (Fin 2) ℂ) false ∉
        Set.Ioc (1 / (2 : ℝ)) 1 := by
  refine ⟨isDensityMatrix_maximally_mixed, purity_maximally_mixed, ?_⟩
  rw [purity_maximally_mixed]
  intro h
  exact absurd h.1 (lt_irrefl _)

/-- C4 (amended): for every density matrix ρ of dimension d, the
unrenormalized purity lies in the closed interval `[1/d, 1]` (the lower end is
attained by the maximally mixed state), and equals 1 iff ρ has rank 1. -/
theorem purity_range_rank {d : ℕ} (ρ : Matrix (Fin d) (Fin d) ℂ)
    (hρ : IsDensityMatrix ρ) :
    purity ρ false ∈ Set.Icc (1 / (d : ℝ)) 1 ∧
      (purity ρ false = 1 ↔ ρ.rank = 1) :=
  ⟨purity_mem_Icc hρ, purity_eq_one_iff_rank_one hρ⟩

/-- Witness for the amended C4 at `d = 1`, `ρ = (1)`. -/
theorem purity_range_rank_witness :
    IsDensityMatrix (1 : Matrix (Fin 1) (Fin 1) ℂ) ∧
      (purity (1 : Matrix (Fin 1) (Fin 1) ℂ) false ∈ Set.Icc (1 / ((1 : ℕ) : ℝ)) 1 ∧
        (purity (1 : Matrix (Fin 1) (Fin 1) ℂ) false = 1 ↔
          (1 : Matrix (Fin 1) (Fin 1) ℂ).rank = 1)) :=
  ⟨isDensityMatrix_one_dim_one, purity_range_rank 1 isDensityMatrix_one_dim_one⟩

/- ### Claim C5: process fidelity (corrected) -/

/-- C5 counterexample: the Pauli-Liouville matrix of the completely
depolarizing channel is trace preserving, yet `process_fidelity(R,R) ≠ 1`
(it equals `1/2`), so `process_fidelity(R,R) = 1` fails for general
trace-preserving maps. -/
theorem process_fidelity_tp_self_counterexample :
    IsTracePreservingPL depolarizing_pl ∧
      process_fidelity depolarizing_pl depolarizing_pl = 1 / 2 ∧
      process_fidelity depolarizing_pl depolarizing_pl ≠ 1 := by
  refine ⟨depolarizing_pl_tp, process_fidelity_depolarizing, ?_⟩
  rw [process_fidelity_depolarizing]
  norm_num

/-- C5 (amended): `process_fidelity(R_P, R_U)` returns
`(Tr[R_Pᵗ R_U]/d + 1)/(d+1)` with `d` inferred from the matrix side length
(`d² = side`); `process_fidelity(R,R) = 1` for the Pauli-Liouville matrix of a
*unitary* channel (an orthogonal `R`, `Rᵀ R = 1`) — not for every
trace-preserving map; and for the identity gate versus the `θ = 0.4` rotation
about X on one qubit the value is `≈ 0.9737` (within `10⁻³`). -/
theorem process_fidelity_contract {k : ℕ} (R_P R_U : Matrix (Fin (k ^ 2)) (Fin (k ^ 2)) ℝ)
    (hR : R_Pᵀ * R_P = 1) :
    process_fidelity R_P R_U =
        ((R_Pᵀ * R_U).trace / (Nat.sqrt (k ^ 2) : ℝ) + 1) / ((Nat.sqrt (k ^ 2) : ℝ) + 1) ∧
      process_fidelity R_P R_P = 1 ∧
      |process_fidelity (1 : Matrix (Fin 4) (Fin 4) ℝ) (rot_x_pl 0.4) - 0.9737| < 0.001 :=
  ⟨rfl, process_fidelity_self_orthogonal R_P hR, process_fidelity_rot_x_04_approx⟩

/-- Witness for the amended C5 at `k = 2`, `R_P = R_U = 1`. -/
theorem process_fidelity_contract_witness :
    ((1 : Matrix (Fin (2 ^ 2)) (Fin (2 ^ 2)) ℝ)ᵀ * 1 = 1) ∧
      (process_fidelity (1 : Matrix (Fin (2 ^ 2)) (Fin (2 ^ 2)) ℝ) 1 =
          (((1 : Matrix (Fin (2 ^ 2)) (Fin (2 ^ 2)) ℝ)ᵀ * 1).trace /
              (Nat.sqrt (2 ^ 2) : ℝ) + 1) / ((Nat.sqrt (2 ^ 2) : ℝ) + 1) ∧
        process_fidelity (1 : Matrix (Fin (2 ^ 2)) (Fin (2 ^ 2)) ℝ) 1 = 1 ∧
        |process_fidelity (1 : Matrix (Fin 4) (Fin 4) ℝ) (rot_x_pl 0.4) - 0.9737| < 0.001) :=
  ⟨by rw [Matrix.transpose_one, one_mul],
    process_fidelity_contract 1 1 (by rw [Matrix.transpose_one, one_mul])⟩

end DistanceMeasures
